import Mathlib

/-!
# Algebraic simplifier for the HLO tensor IR: a verification development

This file gives a shallow embedding of the algebraic-simplifier pass
described in `spec.md` of this repository.  The C++ implementation of the
pass (`algebraic_simplifier.cc`) is not part of the source snapshot; only
its test file `tensorflow/compiler/xla/service/algebraic_simplifier_test.cc`
is.  The definitions below are therefore modelled from the specification,
refined wherever the test file pins down concrete behaviour (each such
refinement is recorded in the corresponding doc comment).

Literal element values are represented abstractly as integers (a value
code standing for the stored scalar); no simplification rule modelled here
computes with the values — the rules only compare them for equality and
against the codes of 0 and 1 — so this abstraction is faithful.
-/

namespace HloSim

/-- Modelled from the spec (§3.1): the closed enumeration of element types —
predicate, signed/unsigned integers of widths 8/16/32/64, floating point of
widths 16/32/64 (plus the brain float), complex of width 64. -/
inductive PrimitiveType : Type where
  | PRED | S8 | S16 | S32 | S64 | U8 | U16 | U32 | U64
  | F16 | BF16 | F32 | F64 | C64
deriving DecidableEq, Repr

/-- Integral element types (signed and unsigned integers). -/
def PrimitiveType.isIntegral : PrimitiveType → Bool
  | .S8 | .S16 | .S32 | .S64 | .U8 | .U16 | .U32 | .U64 => true
  | _ => false

/-- Floating-point element types. -/
def PrimitiveType.isFloatingPoint : PrimitiveType → Bool
  | .F16 | .BF16 | .F32 | .F64 => true
  | _ => false

/-- Complex element types. -/
def PrimitiveType.isComplexType : PrimitiveType → Bool
  | .C64 => true
  | _ => false

/-- Modelled from the spec (§3.1): an array shape — element type, a finite
ordered list of nonnegative dimension sizes, and a layout, a permutation of
the dimension indices giving minor-to-major order.  (Tuple and token shapes
are not needed by the rules modelled here.) -/
structure Shape : Type where
  elementType : PrimitiveType
  dims : List Nat
  layout : List Nat
deriving DecidableEq, Repr

/-- The default descending layout (dimension 0 is major), as produced by
`ShapeUtil::MakeShape` in the test file. -/
def mkShape (t : PrimitiveType) (dims : List Nat) : Shape :=
  ⟨t, dims, (List.range dims.length).reverse⟩

/-- A scalar shape of the given element type. -/
def scalarShape (t : PrimitiveType) : Shape := ⟨t, [], []⟩

/-- Element count: the product of the dimension sizes. -/
def Shape.elemCount (s : Shape) : Nat := s.dims.foldr (· * ·) 1

/-- A shape is scalar iff it has rank zero. -/
def Shape.isScalar (s : Shape) : Bool := s.dims.isEmpty

/-- Modelled from the spec (§4.1): shape equality with and without layout
sensitivity.  In layout-sensitive mode two shapes are the same iff they are
structurally equal; otherwise layout is ignored and only element type and
dimensions are compared. -/
def sameShape (layoutSensitive : Bool) (a b : Shape) : Bool :=
  if layoutSensitive then a == b
  else a.elementType == b.elementType && a.dims == b.dims

/-- The indices of the non-degenerate (size ≠ 1) dimensions of a dimension
list, in increasing (logical) order. -/
def nonDegenDims (dims : List Nat) : List Nat :=
  (List.range dims.length).filter (fun i => dims.getD i 1 ≠ 1)

/-- The sizes of the non-degenerate dimensions, in logical order. -/
def nonDegenSizes (dims : List Nat) : List Nat :=
  (nonDegenDims dims).map (fun i => dims.getD i 1)

/-- For each non-degenerate dimension taken in minor-to-major (layout)
order, its position among the non-degenerate dimensions in logical order.
Two shapes related by a logical reshape store their elements in the same
physical order exactly when these position sequences agree. -/
def physicalOrder (s : Shape) : List Nat :=
  (s.layout.filter (fun i => s.dims.getD i 1 ≠ 1)).map
    (fun i => (nonDegenDims s.dims).indexOf i)

/-- Modelled from the spec (§4.1): the reshape-is-bitcast predicate — two
shapes are bitcast-equivalent iff element types match, element counts
match, and the sequences of dimension sizes are identical after collapsing
size-1 dimensions.  Refined with the physical-order condition required by
test `AlgebraicSimplifierTest.ReshapeReplacedWithBitcast`: the reshape with
layout `{5,4,3,2,1,0}` (`layout_wrong_reshape`) has the same collapsed size
sequence as its operand yet must not be a bitcast, so the minor-to-major
traversal of the non-degenerate dimensions must additionally visit them in
the same logical order on both sides. -/
def reshapeIsBitcast (a b : Shape) : Bool :=
  a.elementType == b.elementType &&
  a.elemCount == b.elemCount &&
  nonDegenSizes a.dims == nonDegenSizes b.dims &&
  physicalOrder a == physicalOrder b

/-- Modelled from the spec (§6.3): the options structure recognized by the
rules.  Note that the specification's §6.3 (and the two-argument
`AlgebraicSimplifier` constructor used throughout the test file) provide
no fast-math field of any kind. -/
structure Options : Type where
  isLayoutSensitive : Bool
  validBitcastCallback : Shape → Shape → Bool
  enableDotStrengthReduction : Bool
  enableConvSimplification : Bool
  maxIterations : Nat

/-- The default pass configuration used by most tests: layout-insensitive,
bitcasts rejected, heavy rules enabled, iteration cap 25 (spec §6.3). -/
def defaultOptions : Options := ⟨false, fun _ _ => false, true, true, 25⟩

/-- Layout-sensitive configuration with a bitcast callback supplied by the
host, as in tests `NoBitcastAdded` and `ReshapeReplacedWithBitcast`. -/
def layoutSensitiveOptions (cb : Shape → Shape → Bool) : Options :=
  ⟨true, cb, true, true, 25⟩

/-- Modelled from the spec (§3.2, §6.1): the instruction graph, restricted
to the opcodes involved in the modelled rewrite rules.  Sharing in the
use-def DAG is represented by subterm duplication; every instruction
carries its declared output shape, operands are subterms, and the
opcode-specific attributes follow `HloInstruction::Create*`:
`transpose` carries its permutation, `slice` its start/limit/stride lists,
`concatenate` its dimension, `pad` its per-dimension
(low, high, interior) edge-padding configuration (edge amounts may be
negative), `dynamicUpdateSlice` its operand/update/start-indices,
`reduce` its operand, init value and reduced dimensions, and `rng` its
scalar lower and upper bounds. -/
inductive Instr : Type where
  | param : Nat → Shape → Instr
  | constant : Shape → List Int → Instr
  | iota : Shape → Instr
  | add : Shape → Instr → Instr → Instr
  | multiply : Shape → Instr → Instr → Instr
  | power : Shape → Instr → Instr → Instr
  | exp : Shape → Instr → Instr
  | log : Shape → Instr → Instr
  | reshape : Shape → Instr → Instr
  | transpose : Shape → Instr → List Nat → Instr
  | broadcast : Shape → Instr → Instr
  | slice : Shape → Instr → List Nat → List Nat → List Nat → Instr
  | concatenate : Shape → List Instr → Nat → Instr
  | pad : Shape → Instr → Instr → List (Int × Int × Int) → Instr
  | dynamicSlice : Shape → Instr → Instr → List Nat → Instr
  | dynamicUpdateSlice : Shape → Instr → Instr → Instr → Instr
  | dot : Shape → Instr → Instr → Instr
  | rng : Shape → Instr → Instr → Instr
  | bitcast : Shape → Instr → Instr
  | reduce : Shape → Instr → Instr → List Nat → Instr
  | tuple : Shape → List Instr → Instr

/-- The declared output shape of an instruction. -/
def Instr.shape : Instr → Shape
  | .param _ s => s
  | .constant s _ => s
  | .iota s => s
  | .add s _ _ => s
  | .multiply s _ _ => s
  | .power s _ _ => s
  | .exp s _ => s
  | .log s _ => s
  | .reshape s _ => s
  | .transpose s _ _ => s
  | .broadcast s _ => s
  | .slice s _ _ _ _ => s
  | .concatenate s _ _ => s
  | .pad s _ _ _ => s
  | .dynamicSlice s _ _ _ => s
  | .dynamicUpdateSlice s _ _ _ => s
  | .dot s _ _ => s
  | .rng s _ _ => s
  | .bitcast s _ => s
  | .reduce s _ _ _ => s
  | .tuple s _ => s

/-- Modelled from the spec (§4.3): `is_all(instr, value)` — true iff the
instruction is a constant (or a broadcast of a constant) whose every
element equals the given value. -/
def isAllValue (v : Int) : Instr → Bool
  | .constant _ vals => !vals.isEmpty && vals.all (· == v)
  | .broadcast _ x => isAllValue v x
  | _ => false

/-- The literal of a rank-1 iota: the consecutive integers from zero. -/
def iotaLiteral (n : Nat) : List Int := (List.range n).map Int.ofNat

/-- Modelled from the spec (§4.5.1, §7): `x × 0 → 0` fires only for
integral element types; for floating point the rule is gated "to preserve
NaN/Inf" and the options carry no fast-math flag, so for a floating
element type the multiply rule returns no change (test
`AlgebraicSimplifierTest.MulZero` exercises the integral case, S32).
The replacement is the all-zero operand itself, as the test expects
(`EXPECT_EQ(computation->root_instruction(), zero)`). -/
def handleMultiply (_opts : Options) (s : Shape) (l r : Instr) : Option Instr :=
  if s.elementType.isIntegral then
    if isAllValue 0 r then some r
    else if isAllValue 0 l then some l
    else none
  else none

/-- Modelled from the spec (§4.5.1): `log(exp(a)) → a` and
`log(pow(a, b)) → log(a) × b`.  Tests `AlgebraicSimplifierTest.LnExp` and
`AlgebraicSimplifierTest.LnPow` apply both rewrites to F32 operands with
the plain two-argument simplifier, so — contrary to the specification's §7
— neither rewrite is gated on an integral element type or on any flag. -/
def handleLog (_opts : Options) (s : Shape) (x : Instr) : Option Instr :=
  match x with
  | .exp _ a => some a
  | .power _ a b => some (.multiply s (.log s a) b)
  | _ => none

/-- Modelled from the spec (§4.5.1): `pow(pow(a, x), y) → pow(a, x × y)`,
disabled for complex element types (tests
`AlgebraicSimplifierTest.PowerOfPower` and `.PowerOfPowerComplex`).  The
exponents are combined by a fresh multiply instruction; no constant
folding is performed. -/
def handlePower (_opts : Options) (s : Shape) (l r : Instr) : Option Instr :=
  match l with
  | .power _ a x =>
      if s.elementType.isComplexType then none
      else some (.power s a (.multiply s x r))
  | _ => none

/-- Modelled from the tests `AlgebraicSimplifierTest.ConstantToBroadcast`,
`.ConstantNotToBroadcast` and `.IotaToBroadcast`: a non-scalar constant
whose elements are all equal becomes a broadcast of a scalar constant
holding the common value; otherwise a rank-1 constant whose elements are
the consecutive integers from zero becomes an `iota`; any other constant
is left unchanged.  (The iota rewrite is demonstrated by the test file but
absent from the specification's rule list.) -/
def handleConstant (_opts : Options) (s : Shape) (vals : List Int) : Option Instr :=
  if !s.isScalar && !vals.isEmpty && vals.all (· == vals.headD 0) then
    some (.broadcast s (.constant (scalarShape s.elementType) [vals.headD 0]))
  else if s.dims.length == 1 && !vals.isEmpty && vals == iotaLiteral vals.length then
    some (.iota s)
  else none

/-- The bitcast branch of the reshape rule, modelled from the spec
(§4.5.3, §6.3, §9): a bitcast-equivalent reshape is replaced by a bitcast
only in layout-sensitive mode and only when `valid_bitcast_callback`
permits the pair of shapes; otherwise the rule returns no change (tests
`NoBitcastAdded` and `ReshapeReplacedWithBitcast`). -/
def reshapeBitcastBranch (opts : Options) (s : Shape) (x : Instr) : Option Instr :=
  if opts.isLayoutSensitive && reshapeIsBitcast x.shape s &&
      opts.validBitcastCallback x.shape s then
    some (.bitcast s x)
  else none

/-- The branch of the reshape rule taken when the reshape is not a
no-op: a reshape of an `rng` with scalar bounds is replaced by a single
`rng` of the reshape's shape (test `ReshapeOfTransposeOfRngToRng`,
combined with the transpose rule below); any other operand falls through
to the bitcast branch. -/
def handleReshapeNontrivial (opts : Options) (s : Shape) : Instr → Option Instr
  | .rng s2 lo hi =>
      if lo.shape.isScalar && hi.shape.isScalar then some (.rng s lo hi)
      else reshapeBitcastBranch opts s (.rng s2 lo hi)
  | x => reshapeBitcastBranch opts s x

/-- Modelled from the spec (§4.5.3, §4.5.10): `reshape(x)` with equal
input and output shapes → `x`; otherwise the rng and bitcast branches
are consulted. -/
def handleReshape (opts : Options) (s : Shape) (x : Instr) : Option Instr :=
  if sameShape opts.isLayoutSensitive x.shape s then some x
  else handleReshapeNontrivial opts s x

/-- Modelled from the spec (§4.5.10): a transpose of an `rng` with scalar
bounds produces independent samples in every position, so it is replaced
by a single `rng` of the transpose's shape. -/
def handleTranspose (_opts : Options) (s : Shape) : Instr → List Nat → Option Instr
  | .rng _ lo hi, _ =>
      if lo.shape.isScalar && hi.shape.isScalar then some (.rng s lo hi) else none
  | _, _ => none

/-- Modelled from the spec (§4.5.4) and test `TrivialDynamicUpdateSlice`:
a `dynamic-update-slice` whose update has the operand's (full) shape is
replaced by the update.  The test fires the rule with non-constant start
indices, so the rule checks only the update's shape: start indices are
clamped during execution, and a full-size update always overwrites the
whole operand. -/
def handleDynamicUpdateSlice (opts : Options) (s : Shape)
    (_op upd _idx : Instr) : Option Instr :=
  if sameShape opts.isLayoutSensitive upd.shape s then some upd else none

/-- Whether any dimension has a negative low or high edge-padding amount. -/
def hasNegativePadding (cfg : List (Int × Int × Int)) : Bool :=
  cfg.any (fun c => c.1 < 0 || c.2.1 < 0)

/-- The loop of the negative-padding rule: walking the padding config and
the operand dimensions together, it produces the clamped nonnegative
config, the dimensions of the intermediate pad, and the start/limit lists
of the trimming slice (start trims the magnitude of a negative low amount,
the limit trims the magnitude of a negative high amount from the padded
dimension). -/
def negPadLoop : List (Int × Int × Int) → List Nat →
    List (Int × Int × Int) × List Nat × List Nat × List Nat
  | (l, h, i) :: cfg, d :: ds =>
      let rest := negPadLoop cfg ds
      let nl := max l 0
      let nh := max h 0
      let pd := ((d : Int) + nl + nh + i * (max ((d : Int) - 1) 0)).toNat
      let st := (-(min l 0)).toNat
      let li := pd - (-(min h 0)).toNat
      ((nl, nh, i) :: rest.1, pd :: rest.2.1, st :: rest.2.2.1, li :: rest.2.2.2)
  | _, _ => ([], [], [], [])

/-- Modelled from the spec (§4.5.5, S5) and test
`AlgebraicSimplifierTest.NegativePadding`: a `pad` with any negative edge
padding is split into a `pad` with nonnegative edges followed by a `slice`
that trims, on each side of each dimension, exactly the magnitude of the
original negative amount. -/
def handlePad (_opts : Options) (s : Shape) (x v : Instr)
    (cfg : List (Int × Int × Int)) : Option Instr :=
  if hasNegativePadding cfg then
    let parts := negPadLoop cfg x.shape.dims
    let innerShape : Shape :=
      ⟨s.elementType, parts.2.1, (List.range parts.2.1.length).reverse⟩
    some (.slice s (.pad innerShape x v parts.1) parts.2.2.1 parts.2.2.2
      (parts.2.2.1.map (fun _ => 1)))
  else none

/-- The loop of the dot-of-concatenate rule for a constant left-hand side:
for each concatenation piece (of shape kᵢ×n), slice the matching
contiguous k-columns out of the m×k constant, form the piece's dot (of the
original dot's shape), and accumulate a left-nested sum. -/
def buildDotLhsConst (s cs : Shape) (c : Instr) :
    Nat → List Instr → Option Instr → Option Instr
  | _, [], acc => acc
  | off, p :: ps, acc =>
      let m := cs.dims.getD 0 0
      let ki := p.shape.dims.getD 0 0
      let sl := Instr.slice (mkShape cs.elementType [m, ki]) c
        [0, off] [m, off + ki] [1, 1]
      let d := Instr.dot s sl p
      buildDotLhsConst s cs c (off + ki)
        ps (some (match acc with | none => d | some a => Instr.add s a d))

/-- The symmetric loop for a constant right-hand side: for each
concatenation piece (of shape m×kᵢ), slice the matching contiguous k-rows
out of the k×n constant. -/
def buildDotRhsConst (s cs : Shape) (c : Instr) :
    Nat → List Instr → Option Instr → Option Instr
  | _, [], acc => acc
  | off, p :: ps, acc =>
      let n := cs.dims.getD 1 0
      let ki := p.shape.dims.getD 1 0
      let sl := Instr.slice (mkShape cs.elementType [ki, n]) c
        [off, 0] [off + ki, n] [1, 1]
      let d := Instr.dot s p sl
      buildDotRhsConst s cs c (off + ki)
        ps (some (match acc with | none => d | some a => Instr.add s a d))

/-- Modelled from the spec (§4.5.8, S6) and tests
`DotOfConcatSimplificationTest.ConstantLHS` / `.ConstantRHS`: a dot of a
constant against a concatenation along the contracting dimension
(dimension 0 of the right operand, dimension 1 of the left operand)
becomes a left-nested sum of per-piece dots, each taking the matching
contiguous slice of the constant. -/
def dotOfConcat (s : Shape) (l r : Instr) : Option Instr :=
  match l, r with
  | .constant cs cv, .concatenate _ pieces cdim =>
      if cdim == 0 && !pieces.isEmpty then
        buildDotLhsConst s cs (.constant cs cv) 0 pieces none
      else none
  | .concatenate _ pieces cdim, .constant cs cv =>
      if cdim == 1 && !pieces.isEmpty then
        buildDotRhsConst s cs (.constant cs cv) 0 pieces none
      else none
  | _, _ => none

/-- Modelled from the spec (§4.5.8): strength reduction of a
two-dimensional dot with operand shapes m×k and k×n in which one of m, k,
n (including the contracting dimension k) equals 1 — the dot degenerates
to a broadcast-multiply-sum sequence.  Guarded by the
`enable_dot_strength_reduction` option (§6.3). -/
def dotStrengthReduce (opts : Options) (s : Shape) (l r : Instr) : Option Instr :=
  if opts.enableDotStrengthReduction then
    match l.shape.dims, r.shape.dims with
    | [m, k], [k2, n] =>
        if k == k2 && (m == 1 || k == 1 || n == 1) then
          let s3 := mkShape s.elementType [m, k, n]
          some (.reduce s (.multiply s3 (.broadcast s3 l) (.broadcast s3 r))
            (.constant (scalarShape s.elementType) [0]) [1])
        else none
    | _, _ => none
  else none

/-- Modelled from test `DotStrengthReductionTest.DotStrengthReduction`
(the `transpose_lhs && transpose_rhs` rows assert a change with no
dimension equal to 1, while the dot opcode survives): a dot of two
transposes is rewritten as the transpose of the dot of the untransposed
operands in swapped order, `dot(transpose(a), transpose(b)) →
transpose(dot(b, a))`. -/
def dotTransposeTranspose (s : Shape) (l r : Instr) : Option Instr :=
  match l, r with
  | .transpose _ a _, .transpose _ b _ =>
      let innerShape := mkShape s.elementType
        [b.shape.dims.getD 0 0, a.shape.dims.getD 1 0]
      some (.transpose s (.dot innerShape b a) [1, 0])
  | _, _ => none

/-- The dot rule table.  The dot-of-concatenate rewrite is tried first
(test `DotOfConcatSimplificationTest.ConstantLHS` with m = 1 leaves the
per-piece dots in place, so strength reduction must not preempt it),
then strength reduction, then the transpose-transpose rewrite (test
`DotStrengthReductionTest` with m = 1 and both operands transposed
requires the dot to be eliminated, so strength reduction comes first). -/
def handleDot (opts : Options) (s : Shape) (l r : Instr) : Option Instr :=
  dotOfConcat s l r <|> dotStrengthReduce opts s l r <|> dotTransposeTranspose s l r

/-- Modelled from the spec (§2, §4.5): the per-opcode rule table.  Given
an instruction, returns the replacement produced by the first applicable
rule, or `none` when no rule fires. -/
def rewriteRoot (opts : Options) : Instr → Option Instr
  | .multiply s l r => handleMultiply opts s l r
  | .log s x => handleLog opts s x
  | .power s l r => handlePower opts s l r
  | .constant s vals => handleConstant opts s vals
  | .reshape s x => handleReshape opts s x
  | .transpose s x perm => handleTranspose opts s x perm
  | .dynamicUpdateSlice s op upd idx => handleDynamicUpdateSlice opts s op upd idx
  | .pad s x v cfg => handlePad opts s x v cfg
  | .dot s l r => handleDot opts s l r
  | _ => none

/-- Apply the rule table once at the root of an already-rebuilt
instruction, recording whether a rule fired. -/
def applyRoot (opts : Options) (e : Instr) (c : Bool) : Instr × Bool :=
  match rewriteRoot opts e with
  | some r => (r, true)
  | none => (e, c)

mutual
/-- Modelled from the spec (§4.6): one sweep of the driver — instructions
are visited in post-order (operands before users, as the dataflow
visitor does), each visited instruction is dispatched to the rule table,
and a firing rule substitutes its replacement; replacements are not
themselves revisited during the same sweep.  Returns the rewritten
instruction tree together with the sweep's change flag. -/
def sweepB (opts : Options) : Instr → Instr × Bool
  | .param i s => applyRoot opts (.param i s) false
  | .constant s v => applyRoot opts (.constant s v) false
  | .iota s => applyRoot opts (.iota s) false
  | .add s l r =>
      let lc := sweepB opts l
      let rc := sweepB opts r
      applyRoot opts (.add s lc.1 rc.1) (lc.2 || rc.2)
  | .multiply s l r =>
      let lc := sweepB opts l
      let rc := sweepB opts r
      applyRoot opts (.multiply s lc.1 rc.1) (lc.2 || rc.2)
  | .power s l r =>
      let lc := sweepB opts l
      let rc := sweepB opts r
      applyRoot opts (.power s lc.1 rc.1) (lc.2 || rc.2)
  | .exp s x =>
      let xc := sweepB opts x
      applyRoot opts (.exp s xc.1) xc.2
  | .log s x =>
      let xc := sweepB opts x
      applyRoot opts (.log s xc.1) xc.2
  | .reshape s x =>
      let xc := sweepB opts x
      applyRoot opts (.reshape s xc.1) xc.2
  | .transpose s x perm =>
      let xc := sweepB opts x
      applyRoot opts (.transpose s xc.1 perm) xc.2
  | .broadcast s x =>
      let xc := sweepB opts x
      applyRoot opts (.broadcast s xc.1) xc.2
  | .slice s x st li str =>
      let xc := sweepB opts x
      applyRoot opts (.slice s xc.1 st li str) xc.2
  | .concatenate s ops d =>
      let oc := sweepList opts ops
      applyRoot opts (.concatenate s oc.1 d) oc.2
  | .pad s x v cfg =>
      let xc := sweepB opts x
      let vc := sweepB opts v
      applyRoot opts (.pad s xc.1 vc.1 cfg) (xc.2 || vc.2)
  | .dynamicSlice s x idx sz =>
      let xc := sweepB opts x
      let ic := sweepB opts idx
      applyRoot opts (.dynamicSlice s xc.1 ic.1 sz) (xc.2 || ic.2)
  | .dynamicUpdateSlice s op upd idx =>
      let oc := sweepB opts op
      let uc := sweepB opts upd
      let ic := sweepB opts idx
      applyRoot opts (.dynamicUpdateSlice s oc.1 uc.1 ic.1) (oc.2 || uc.2 || ic.2)
  | .dot s l r =>
      let lc := sweepB opts l
      let rc := sweepB opts r
      applyRoot opts (.dot s lc.1 rc.1) (lc.2 || rc.2)
  | .rng s lo hi =>
      let lc := sweepB opts lo
      let hc := sweepB opts hi
      applyRoot opts (.rng s lc.1 hc.1) (lc.2 || hc.2)
  | .bitcast s x =>
      let xc := sweepB opts x
      applyRoot opts (.bitcast s xc.1) xc.2
  | .reduce s x init dims =>
      let xc := sweepB opts x
      let ic := sweepB opts init
      applyRoot opts (.reduce s xc.1 ic.1 dims) (xc.2 || ic.2)
  | .tuple s ops =>
      let oc := sweepList opts ops
      applyRoot opts (.tuple s oc.1) oc.2

/-- Sweep a list of operand instructions, collecting the change flag. -/
def sweepList (opts : Options) : List Instr → List Instr × Bool
  | [] => ([], false)
  | x :: xs =>
      let xc := sweepB opts x
      let xsc := sweepList opts xs
      (xc.1 :: xsc.1, xc.2 || xsc.2)
end

/-- Modelled from the spec (§4.6): the fixed-point loop of the driver —
sweep; if the sweep reported a change, record it and re-sweep, up to the
iteration cap; stop as soon as a full sweep produces no changes. -/
def runToFixedPoint (opts : Options) : Nat → Instr → Bool → Instr × Bool
  | 0, e, c => (e, c)
  | n + 1, e, c =>
      let sc := sweepB opts e
      if sc.2 then runToFixedPoint opts n sc.1 true else (e, c)

/-- Modelled from the spec (§4.6): `simplify` — run sweeps to a fixed
point (bounded by the fuel), returning the final module together with
whether anything changed. -/
def simplify (opts : Options) (fuel : Nat) (e : Instr) : Instr × Bool :=
  runToFixedPoint opts fuel e false

mutual
/-- Whether the dot opcode occurs anywhere in the instruction tree. -/
def containsDot : Instr → Bool
  | .param _ _ => false
  | .constant _ _ => false
  | .iota _ => false
  | .add _ l r => containsDot l || containsDot r
  | .multiply _ l r => containsDot l || containsDot r
  | .power _ l r => containsDot l || containsDot r
  | .exp _ x => containsDot x
  | .log _ x => containsDot x
  | .reshape _ x => containsDot x
  | .transpose _ x _ => containsDot x
  | .broadcast _ x => containsDot x
  | .slice _ x _ _ _ => containsDot x
  | .concatenate _ ops _ => containsDotList ops
  | .pad _ x v _ => containsDot x || containsDot v
  | .dynamicSlice _ x idx _ => containsDot x || containsDot idx
  | .dynamicUpdateSlice _ op upd idx =>
      containsDot op || containsDot upd || containsDot idx
  | .dot _ _ _ => true
  | .rng _ lo hi => containsDot lo || containsDot hi
  | .bitcast _ x => containsDot x
  | .reduce _ x init _ => containsDot x || containsDot init
  | .tuple _ ops => containsDotList ops

/-- Whether the dot opcode occurs in any instruction of the list. -/
def containsDotList : List Instr → Bool
  | [] => false
  | x :: xs => containsDot x || containsDotList xs
end

mutual
/-- Modelled from the spec (§3.2, §4.7): the fragment of the verifier's
shape check needed by the shape-preservation argument — element-wise
unary and binary instructions have operands of their own shape, and a
dynamic-update-slice has its operand's shape (each up to layout in
layout-insensitive mode), recursively at every instruction. -/
def wf (ls : Bool) : Instr → Bool
  | .param _ _ => true
  | .constant _ _ => true
  | .iota _ => true
  | .add s l r =>
      sameShape ls l.shape s && sameShape ls r.shape s && wf ls l && wf ls r
  | .multiply s l r =>
      sameShape ls l.shape s && sameShape ls r.shape s && wf ls l && wf ls r
  | .power s l r =>
      sameShape ls l.shape s && sameShape ls r.shape s && wf ls l && wf ls r
  | .exp s x => sameShape ls x.shape s && wf ls x
  | .log s x => sameShape ls x.shape s && wf ls x
  | .reshape _ x => wf ls x
  | .transpose _ x _ => wf ls x
  | .broadcast _ x => wf ls x
  | .slice _ x _ _ _ => wf ls x
  | .concatenate _ ops _ => wfList ls ops
  | .pad _ x v _ => wf ls x && wf ls v
  | .dynamicSlice _ x idx _ => wf ls x && wf ls idx
  | .dynamicUpdateSlice s op upd idx =>
      sameShape ls op.shape s && wf ls op && wf ls upd && wf ls idx
  | .dot _ l r => wf ls l && wf ls r
  | .rng _ lo hi => wf ls lo && wf ls hi
  | .bitcast _ x => wf ls x
  | .reduce _ x init _ => wf ls x && wf ls init
  | .tuple _ ops => wfList ls ops

/-- Every instruction of the list is well formed. -/
def wfList (ls : Bool) : List Instr → Bool
  | [] => true
  | x :: xs => wf ls x && wfList ls xs
end

/-- Whether an instruction is an `rng`. -/
def isRngInstr : Instr → Bool
  | .rng _ _ _ => true
  | _ => false

/-! Concrete shapes and modules taken from the test file, used to settle
the claims on explicit inputs. -/

/-- Scalar F32 shape, as `ShapeUtil::MakeShape(F32, {})`. -/
def r0f32 : Shape := mkShape .F32 []

/-- Scalar S32 shape. -/
def r0s32 : Shape := mkShape .S32 []

/-- Rank-1 F32 shape of 7 elements, as in `PowerOfPower`. -/
def r1f32 : Shape := mkShape .F32 [7]

/-- Rank-1 C64 shape of 7 elements, as in `PowerOfPowerComplex`. -/
def r1c64 : Shape := mkShape .C64 [7]

/-- The module of test `AlgebraicSimplifierTest.LnExp`:
`log(exp(param0))` over scalar f32. -/
def lnExpModule : Instr := .log r0f32 (.exp r0f32 (.param 0 r0f32))

/-- The module of test `AlgebraicSimplifierTest.PowerOfPowerComplex`:
`pow(pow(param0, param1), param2)` over c64[7]. -/
def powerOfPowerComplexModule : Instr :=
  .power r1c64 (.power r1c64 (.param 0 r1c64) (.param 1 r1c64)) (.param 2 r1c64)

/-- A nested power chain `pow(pow(pow(p0, p1), p2), p3)` over f32[7]; the
power-of-power rule applied to its own output fires again on it. -/
def powerChainModule : Instr :=
  .power r1f32
    (.power r1f32 (.power r1f32 (.param 0 r1f32) (.param 1 r1f32)) (.param 2 r1f32))
    (.param 3 r1f32)

/-- The 2×2 F32 parameter shape with layout `{0,1}` of test
`ReshapeReplacedWithBitcast`. -/
def shape22 : Shape := ⟨.F32, [2, 2], [0, 1]⟩

/-- The bitcast-transformable reshape target shape (dims
`{1,2,1,1,2,1}`, layout `{0,1,2,3,4,5}`) of tests `NoBitcastAdded` and
`ReshapeReplacedWithBitcast`. -/
def shapeReshapeOk : Shape := ⟨.F32, [1, 2, 1, 1, 2, 1], [0, 1, 2, 3, 4, 5]⟩

/-- The `dimensions_wrong_reshape` target shape (dims `{1,4,1,1,1,1}`)
of test `ReshapeReplacedWithBitcast`. -/
def shapeDimsWrong : Shape := ⟨.F32, [1, 4, 1, 1, 1, 1], [0, 1, 2, 3, 4, 5]⟩

/-- The `layout_wrong_reshape` target shape (layout `{5,4,3,2,1,0}`)
of test `ReshapeReplacedWithBitcast`. -/
def shapeLayoutWrong : Shape := ⟨.F32, [1, 2, 1, 1, 2, 1], [5, 4, 3, 2, 1, 0]⟩

/-- The module of test `AlgebraicSimplifierTest.NoBitcastAdded`: a
bitcast-equivalent reshape of a 2×2 parameter, run layout-sensitively
with the rejecting callback. -/
def noBitcastModule : Instr := .reshape shapeReshapeOk (.param 0 shape22)

/-- The module of test `AlgebraicSimplifierTest.NegativePadding`:
`pad(param 10×10, 0.0, low=[-1,-2], high=[2,-3])` of shape 11×5. -/
def negativePaddingModule : Instr :=
  .pad (mkShape .F32 [11, 5]) (.param 0 (mkShape .F32 [10, 10]))
    (.constant (scalarShape .F32) [0]) [(-1, 2, 0), (-2, -3, 0)]

/-- The constant of test `AlgebraicSimplifierTest.ConstantToBroadcast`
(`{3.14f, 3.14f, 3.14f}`, the value code 314 standing for 3.14f). -/
def constantAllSameModule : Instr := .constant (mkShape .F32 [3]) [314, 314, 314]

/-- The constant of test `AlgebraicSimplifierTest.ConstantNotToBroadcast`
(`{3.14f, 3.14f, 4f}`, value codes 314 and 400). -/
def constantMixedModule : Instr := .constant (mkShape .F32 [3]) [314, 314, 400]

/-- The constant of test `AlgebraicSimplifierTest.IotaToBroadcast`
(`{0.0f, 1.0f, 2.0f}`). -/
def constantIotaModule : Instr := .constant (mkShape .F32 [3]) [0, 1, 2]

/-- The linspace constant literal of the `DotOfConcatSimplificationTest`
tests, abstracted to consecutive value codes. -/
def linspace (n : Nat) : List Int := (List.range n).map Int.ofNat

/-- The module of test `DotOfConcatSimplificationTest.ConstantLHS` with
m = 3, k = 9 (pieces of 3 + 3 + 3 rows), n = 3: a 3×9 constant dotted
with a concatenation of three 3×3 parameters along dimension 0 (the
contracting dimension of the right operand). -/
def dotOfConcatLhsModule : Instr :=
  .dot (mkShape .F32 [3, 3]) (.constant (mkShape .F32 [3, 9]) (linspace 27))
    (.concatenate (mkShape .F32 [9, 3])
      [.param 0 (mkShape .F32 [3, 3]), .param 1 (mkShape .F32 [3, 3]),
        .param 2 (mkShape .F32 [3, 3])] 0)

/-- The module of test `DotOfConcatSimplificationTest.ConstantRHS` with
m = 2, k = 4 (pieces of 1 + 1 + 1 + 1 columns), n = 3: a concatenation of
four 2×1 parameters along dimension 1 (the contracting dimension of the
left operand) dotted with a 4×3 constant. -/
def dotOfConcatRhsModule : Instr :=
  .dot (mkShape .F32 [2, 3])
    (.concatenate (mkShape .F32 [2, 4])
      [.param 0 (mkShape .F32 [2, 1]), .param 1 (mkShape .F32 [2, 1]),
        .param 2 (mkShape .F32 [2, 1]), .param 3 (mkShape .F32 [2, 1])] 1)
    (.constant (mkShape .F32 [4, 3]) (linspace 12))

/-- The module family of `DotStrengthReductionTest.DotStrengthReduction`:
a dot of shape m×n whose operands are F32 parameters of shapes m×k and
k×n, each optionally produced by a transpose of a parameter of the
transposed shape. -/
def dotStrengthModule (m k n : Nat) (tl tr : Bool) : Instr :=
  let lhs := if tl then
      Instr.transpose (mkShape .F32 [m, k]) (.param 0 (mkShape .F32 [k, m])) [1, 0]
    else Instr.param 0 (mkShape .F32 [m, k])
  let rhs := if tr then
      Instr.transpose (mkShape .F32 [k, n]) (.param 1 (mkShape .F32 [n, k])) [1, 0]
    else Instr.param 1 (mkShape .F32 [k, n])
  .dot (mkShape .F32 [m, n]) lhs rhs

/-- The module of test `AlgebraicSimplifierTest.TrivialDynamicUpdateSlice`:
a dynamic-update-slice whose update (a dynamic-slice of a parameter) has
the full shape of the operand being updated, with parameter start
indices. -/
def trivialDusModule : Instr :=
  .dynamicUpdateSlice (mkShape .F32 [10, 1, 1000]) (.param 2 (mkShape .F32 [10, 1, 1000]))
    (.dynamicSlice (mkShape .F32 [10, 1, 1000]) (.param 0 (mkShape .F32 [10, 100, 1000]))
      (.param 1 (mkShape .U32 [3])) [10, 1, 1000])
    (.param 3 (mkShape .U32 [3]))

/-! Claim-language description of the negative-padding split, written
from the specification's words (§4.5.5, S5) independently of the rule's
loop, for comparison with `negPadLoop`. -/

/-- The clamped nonnegative edge padding of one dimension: the positive
parts of the original low/high amounts, interior unchanged. -/
def clampEdges (c : Int × Int × Int) : Int × Int × Int :=
  (max c.1 0, max c.2.1 0, c.2.2)

/-- The magnitude of a negative low edge amount (zero when nonnegative):
what the trimming slice removes on the low side. -/
def lowTrim (c : Int × Int × Int) : Nat := (-(min c.1 0)).toNat

/-- The magnitude of a negative high edge amount (zero when nonnegative):
what the trimming slice removes on the high side. -/
def highTrim (c : Int × Int × Int) : Nat := (-(min c.2.1 0)).toNat

/-- The padded size of one dimension under the clamped nonnegative
config: size + positive low + positive high + interior between elements. -/
def specPaddedDim (c : Int × Int × Int) (d : Nat) : Nat :=
  ((d : Int) + max c.1 0 + max c.2.1 0 + c.2.2 * (max ((d : Int) - 1) 0)).toNat

/-- The dimension list of the intermediate nonnegative pad. -/
def specPaddedDims (cfg : List (Int × Int × Int)) (ds : List Nat) : List Nat :=
  List.zipWith specPaddedDim cfg ds

/-! Claim-language description of the dot-of-concatenate rewrite,
written from the specification's words (§4.5.8, S6) independently of the
rule's accumulator loop, for comparison with `buildDotLhsConst` and
`buildDotRhsConst`: one dot per concatenation piece, each taking the
matching contiguous slice of the constant, combined by a left-nested
sum. -/

/-- The dot for one piece when the constant is the left operand: the
m×kᵢ slice of the m×k constant starting at k-column `off`, dotted with
the piece, carrying the original dot's shape. -/
def specPieceDotLhs (s cs : Shape) (c : Instr) (off : Nat) (p : Instr) : Instr :=
  .dot s
    (.slice (mkShape cs.elementType [cs.dims.getD 0 0, p.shape.dims.getD 0 0]) c
      [0, off] [cs.dims.getD 0 0, off + p.shape.dims.getD 0 0] [1, 1])
    p

/-- One dot per concatenation piece for a constant left operand, with
each piece's slice starting where the previous piece ended. -/
def specPieceDotsLhs (s cs : Shape) (c : Instr) : Nat → List Instr → List Instr
  | _, [] => []
  | off, p :: ps =>
      specPieceDotLhs s cs c off p ::
        specPieceDotsLhs s cs c (off + p.shape.dims.getD 0 0) ps

/-- The dot for one piece when the constant is the right operand: the
piece dotted with the kᵢ×n slice of the k×n constant starting at k-row
`off`, carrying the original dot's shape. -/
def specPieceDotRhs (s cs : Shape) (c : Instr) (off : Nat) (p : Instr) : Instr :=
  .dot s p
    (.slice (mkShape cs.elementType [p.shape.dims.getD 1 0, cs.dims.getD 1 0]) c
      [off, 0] [off + p.shape.dims.getD 1 0, cs.dims.getD 1 0] [1, 1])

/-- One dot per concatenation piece for a constant right operand. -/
def specPieceDotsRhs (s cs : Shape) (c : Instr) : Nat → List Instr → List Instr
  | _, [] => []
  | off, p :: ps =>
      specPieceDotRhs s cs c off p ::
        specPieceDotsRhs s cs c (off + p.shape.dims.getD 1 0) ps

/-- A left-nested sum of the given instructions onto an initial summand:
`leftNestedSum s a [d₁, d₂, d₃] = add(add(add(a, d₁), d₂), d₃)`. -/
def leftNestedSum (s : Shape) : Instr → List Instr → Instr
  | a, [] => a
  | a, d :: ds => leftNestedSum s (.add s a d) ds

/-! ## Shape-preservation lemmas -/

theorem sameShape_refl (ls : Bool) (a : Shape) : sameShape ls a a = true := by
  cases ls <;> simp [sameShape]

theorem sameShape_trans {ls : Bool} {a b c : Shape}
    (h1 : sameShape ls a b = true) (h2 : sameShape ls b c = true) :
    sameShape ls a c = true := by
  cases ls <;> simp_all [sameShape]

theorem handleMultiply_preserves {ls : Bool} {opts : Options} {s : Shape}
    {l r e' : Instr} (h : handleMultiply opts s l r = some e')
    (h1 : sameShape ls l.shape s = true) (h2 : sameShape ls r.shape s = true)
    (hl : wf ls l = true) (hr : wf ls r = true) :
    sameShape ls e'.shape s = true ∧ wf ls e' = true := by
  unfold handleMultiply at h
  split_ifs at h <;> cases h <;> exact ⟨by assumption, by assumption⟩

theorem handleLog_preserves {ls : Bool} {opts : Options} {s : Shape}
    {x e' : Instr} (h : handleLog opts s x = some e')
    (h1 : sameShape ls x.shape s = true) (hx : wf ls x = true) :
    sameShape ls e'.shape s = true ∧ wf ls e' = true := by
  cases x with
  | exp s2 a =>
      cases h
      simp only [Instr.shape] at h1
      simp only [wf, Bool.and_eq_true, and_assoc] at hx
      exact ⟨sameShape_trans hx.1 h1, hx.2⟩
  | power s2 a b =>
      cases h
      simp only [Instr.shape] at h1
      simp only [wf, Bool.and_eq_true, and_assoc] at hx
      obtain ⟨ha, hb, hwa, hwb⟩ := hx
      refine ⟨sameShape_refl ls s, ?_⟩
      simp only [wf, Instr.shape, Bool.and_eq_true, and_assoc]
      exact ⟨sameShape_refl ls s, sameShape_trans hb h1,
        sameShape_trans ha h1, hwa, hwb⟩
  | _ => simp [handleLog] at h

theorem handlePower_preserves {ls : Bool} {opts : Options} {s : Shape}
    {l r e' : Instr} (h : handlePower opts s l r = some e')
    (h1 : sameShape ls l.shape s = true) (h2 : sameShape ls r.shape s = true)
    (hl : wf ls l = true) (hr : wf ls r = true) :
    sameShape ls e'.shape s = true ∧ wf ls e' = true := by
  cases l with
  | power s2 a x =>
      unfold handlePower at h
      split_ifs at h
      cases h
      simp only [Instr.shape] at h1
      simp only [wf, Bool.and_eq_true, and_assoc] at hl
      obtain ⟨ha, hxs, hwa, hwx⟩ := hl
      refine ⟨sameShape_refl ls s, ?_⟩
      simp only [wf, Instr.shape, Bool.and_eq_true, and_assoc]
      exact ⟨sameShape_trans ha h1, sameShape_refl ls s, hwa,
        sameShape_trans hxs h1, h2, hwx, hr⟩
  | _ => simp [handlePower] at h

theorem handleConstant_preserves {ls : Bool} {opts : Options} {s : Shape}
    {vals : List Int} {e' : Instr} (h : handleConstant opts s vals = some e') :
    sameShape ls e'.shape s = true ∧ wf ls e' = true := by
  unfold handleConstant at h
  split_ifs at h <;> cases h <;>
    exact ⟨sameShape_refl ls s, by simp [wf]⟩

theorem handleReshape_preserves {opts : Options} {s : Shape}
    {x e' : Instr} (h : handleReshape opts s x = some e')
    (hx : wf opts.isLayoutSensitive x = true) :
    sameShape opts.isLayoutSensitive e'.shape s = true ∧
      wf opts.isLayoutSensitive e' = true := by
  unfold handleReshape at h
  by_cases hs : sameShape opts.isLayoutSensitive x.shape s = true
  · rw [if_pos hs] at h
    cases h
    exact ⟨hs, hx⟩
  · rw [if_neg hs] at h
    have hbc : ∀ e'', reshapeBitcastBranch opts s x = some e'' →
        sameShape opts.isLayoutSensitive e''.shape s = true ∧
          wf opts.isLayoutSensitive e'' = true := by
      intro e'' h''
      unfold reshapeBitcastBranch at h''
      split_ifs at h''
      cases h''
      exact ⟨sameShape_refl _ s, by simpa [wf] using hx⟩
    cases x with
    | rng s2 lo hi =>
        simp only [handleReshapeNontrivial] at h
        split_ifs at h with hsc
        · cases h
          simp only [wf, Bool.and_eq_true] at hx
          exact ⟨sameShape_refl _ s, by simp [wf, hx.1, hx.2]⟩
        · exact hbc _ h
    | param i s2 => exact hbc _ (by simpa [handleReshapeNontrivial] using h)
    | constant s2 v => exact hbc _ (by simpa [handleReshapeNontrivial] using h)
    | iota s2 => exact hbc _ (by simpa [handleReshapeNontrivial] using h)
    | add s2 a b => exact hbc _ (by simpa [handleReshapeNontrivial] using h)
    | multiply s2 a b => exact hbc _ (by simpa [handleReshapeNontrivial] using h)
    | power s2 a b => exact hbc _ (by simpa [handleReshapeNontrivial] using h)
    | exp s2 a => exact hbc _ (by simpa [handleReshapeNontrivial] using h)
    | log s2 a => exact hbc _ (by simpa [handleReshapeNontrivial] using h)
    | reshape s2 a => exact hbc _ (by simpa [handleReshapeNontrivial] using h)
    | transpose s2 a p => exact hbc _ (by simpa [handleReshapeNontrivial] using h)
    | broadcast s2 a => exact hbc _ (by simpa [handleReshapeNontrivial] using h)
    | slice s2 a b c d => exact hbc _ (by simpa [handleReshapeNontrivial] using h)
    | concatenate s2 a b => exact hbc _ (by simpa [handleReshapeNontrivial] using h)
    | pad s2 a b c => exact hbc _ (by simpa [handleReshapeNontrivial] using h)
    | dynamicSlice s2 a b c => exact hbc _ (by simpa [handleReshapeNontrivial] using h)
    | dynamicUpdateSlice s2 a b c =>
        exact hbc _ (by simpa [handleReshapeNontrivial] using h)
    | dot s2 a b => exact hbc _ (by simpa [handleReshapeNontrivial] using h)
    | bitcast s2 a => exact hbc _ (by simpa [handleReshapeNontrivial] using h)
    | reduce s2 a b c => exact hbc _ (by simpa [handleReshapeNontrivial] using h)
    | tuple s2 a => exact hbc _ (by simpa [handleReshapeNontrivial] using h)

theorem handleTranspose_preserves {ls : Bool} {opts : Options} {s : Shape}
    {x e' : Instr} {perm : List Nat} (h : handleTranspose opts s x perm = some e')
    (hx : wf ls x = true) :
    sameShape ls e'.shape s = true ∧ wf ls e' = true := by
  cases x with
  | rng s2 lo hi =>
      simp only [handleTranspose] at h
      split_ifs at h
      cases h
      simp only [wf, Bool.and_eq_true] at hx
      exact ⟨sameShape_refl ls s, by simp [wf, hx.1, hx.2]⟩
  | _ => simp [handleTranspose] at h

theorem handleDynamicUpdateSlice_preserves {opts : Options} {s : Shape}
    {op upd idx e' : Instr} (h : handleDynamicUpdateSlice opts s op upd idx = some e')
    (hu : wf opts.isLayoutSensitive upd = true) :
    sameShape opts.isLayoutSensitive e'.shape s = true ∧
      wf opts.isLayoutSensitive e' = true := by
  unfold handleDynamicUpdateSlice at h
  split_ifs at h with hg
  cases h
  exact ⟨hg, hu⟩

theorem handlePad_preserves {ls : Bool} {opts : Options} {s : Shape}
    {x v e' : Instr} {cfg : List (Int × Int × Int)}
    (h : handlePad opts s x v cfg = some e')
    (hx : wf ls x = true) (hv : wf ls v = true) :
    sameShape ls e'.shape s = true ∧ wf ls e' = true := by
  unfold handlePad at h
  split_ifs at h
  cases h
  exact ⟨sameShape_refl ls s, by simp [wf, hx, hv]⟩

theorem buildDotLhsConst_preserves {ls : Bool} {s cs : Shape} {c : Instr}
    (hc : wf ls c = true) :
    ∀ (ps : List Instr) (off : Nat) (acc : Option Instr),
      wfList ls ps = true →
      (∀ a, acc = some a → a.shape = s ∧ wf ls a = true) →
      ∀ r, buildDotLhsConst s cs c off ps acc = some r →
        r.shape = s ∧ wf ls r = true := by
  intro ps
  induction ps with
  | nil =>
      intro off acc _ hacc r h
      simp only [buildDotLhsConst] at h
      exact hacc r h
  | cons p ps ih =>
      intro off acc hps hacc r h
      simp only [buildDotLhsConst] at h
      simp only [wfList, Bool.and_eq_true] at hps
      refine ih _ _ hps.2 ?_ r h
      intro a ha
      cases ha
      cases acc with
      | none => exact ⟨rfl, by simp [wf, Instr.shape, hc, hps.1]⟩
      | some a0 =>
          obtain ⟨h0s, h0w⟩ := hacc a0 rfl
          refine ⟨rfl, ?_⟩
          simp only [wf, Bool.and_eq_true, and_assoc]
          refine ⟨?_, sameShape_refl ls s, h0w, ?_⟩
          · rw [h0s]; exact sameShape_refl ls s
          · simp [wf, hc, hps.1]

theorem buildDotRhsConst_preserves {ls : Bool} {s cs : Shape} {c : Instr}
    (hc : wf ls c = true) :
    ∀ (ps : List Instr) (off : Nat) (acc : Option Instr),
      wfList ls ps = true →
      (∀ a, acc = some a → a.shape = s ∧ wf ls a = true) →
      ∀ r, buildDotRhsConst s cs c off ps acc = some r →
        r.shape = s ∧ wf ls r = true := by
  intro ps
  induction ps with
  | nil =>
      intro off acc _ hacc r h
      simp only [buildDotRhsConst] at h
      exact hacc r h
  | cons p ps ih =>
      intro off acc hps hacc r h
      simp only [buildDotRhsConst] at h
      simp only [wfList, Bool.and_eq_true] at hps
      refine ih _ _ hps.2 ?_ r h
      intro a ha
      cases ha
      cases acc with
      | none => exact ⟨rfl, by simp [wf, Instr.shape, hc, hps.1]⟩
      | some a0 =>
          obtain ⟨h0s, h0w⟩ := hacc a0 rfl
          refine ⟨rfl, ?_⟩
          simp only [wf, Bool.and_eq_true, and_assoc]
          refine ⟨?_, sameShape_refl ls s, h0w, ?_⟩
          · rw [h0s]; exact sameShape_refl ls s
          · simp [wf, hc, hps.1]

theorem dotOfConcat_preserves {ls : Bool} {s : Shape} {l r e' : Instr}
    (h : dotOfConcat s l r = some e')
    (hl : wf ls l = true) (hr : wf ls r = true) :
    e'.shape = s ∧ wf ls e' = true := by
  unfold dotOfConcat at h
  split at h
  · split_ifs at h
    exact buildDotLhsConst_preserves (by simp [wf]) _ 0 none
      (by simpa [wf] using hr) (fun a ha => by cases ha) e' h
  · split_ifs at h
    exact buildDotRhsConst_preserves (by simp [wf]) _ 0 none
      (by simpa [wf] using hl) (fun a ha => by cases ha) e' h
  · exact Option.noConfusion h

theorem dotStrengthReduce_preserves {ls : Bool} {opts : Options} {s : Shape}
    {l r e' : Instr} (h : dotStrengthReduce opts s l r = some e')
    (hl : wf ls l = true) (hr : wf ls r = true) :
    e'.shape = s ∧ wf ls e' = true := by
  unfold dotStrengthReduce at h
  split at h
  · split at h
    · split at h
      · cases h
        exact ⟨rfl, by simp [wf, Instr.shape, sameShape_refl, hl, hr]⟩
      · exact Option.noConfusion h
    · exact Option.noConfusion h
  · exact Option.noConfusion h

theorem dotTransposeTranspose_preserves {ls : Bool} {s : Shape} {l r e' : Instr}
    (h : dotTransposeTranspose s l r = some e')
    (hl : wf ls l = true) (hr : wf ls r = true) :
    e'.shape = s ∧ wf ls e' = true := by
  unfold dotTransposeTranspose at h
  split at h
  · cases h
    refine ⟨rfl, ?_⟩
    simp only [wf] at hl hr
    simp [wf, hl, hr]
  · exact Option.noConfusion h

theorem handleDot_preserves {ls : Bool} {opts : Options} {s : Shape}
    {l r e' : Instr} (h : handleDot opts s l r = some e')
    (hl : wf ls l = true) (hr : wf ls r = true) :
    e'.shape = s ∧ wf ls e' = true := by
  unfold handleDot at h
  rcases hx : dotOfConcat s l r with _ | v
  · rw [hx] at h
    simp only [Option.none_orElse] at h
    rcases hy : dotStrengthReduce opts s l r with _ | w
    · rw [hy] at h
      simp only [Option.none_orElse] at h
      exact dotTransposeTranspose_preserves h hl hr
    · rw [hy] at h
      simp only [Option.some_orElse] at h
      cases h
      exact dotStrengthReduce_preserves hy hl hr
  · rw [hx] at h
    simp only [Option.some_orElse] at h
    cases h
    exact dotOfConcat_preserves hx hl hr

/-- Every firing rule is shape-preserving (element type and dimensions
always; the layout as well in layout-sensitive mode), and produces a
well-formed replacement from a well-formed instruction. -/
theorem rewriteRoot_preserves {opts : Options} {e e' : Instr}
    (hwf : wf opts.isLayoutSensitive e = true)
    (h : rewriteRoot opts e = some e') :
    sameShape opts.isLayoutSensitive e'.shape e.shape = true ∧
      wf opts.isLayoutSensitive e' = true := by
  cases e with
  | multiply s l r =>
      simp only [rewriteRoot] at h
      simp only [wf, Bool.and_eq_true, and_assoc] at hwf
      obtain ⟨h1, h2, h3, h4⟩ := hwf
      exact handleMultiply_preserves h h1 h2 h3 h4
  | log s x =>
      simp only [rewriteRoot] at h
      simp only [wf, Bool.and_eq_true, and_assoc] at hwf
      exact handleLog_preserves h hwf.1 hwf.2
  | power s l r =>
      simp only [rewriteRoot] at h
      simp only [wf, Bool.and_eq_true, and_assoc] at hwf
      obtain ⟨h1, h2, h3, h4⟩ := hwf
      exact handlePower_preserves h h1 h2 h3 h4
  | constant s vals =>
      simp only [rewriteRoot] at h
      exact handleConstant_preserves h
  | reshape s x =>
      simp only [rewriteRoot] at h
      simp only [wf] at hwf
      exact handleReshape_preserves h hwf
  | transpose s x perm =>
      simp only [rewriteRoot] at h
      simp only [wf] at hwf
      exact handleTranspose_preserves h hwf
  | dynamicUpdateSlice s op upd idx =>
      simp only [rewriteRoot] at h
      simp only [wf, Bool.and_eq_true, and_assoc] at hwf
      exact handleDynamicUpdateSlice_preserves h hwf.2.2.1
  | pad s x v cfg =>
      simp only [rewriteRoot] at h
      simp only [wf, Bool.and_eq_true, and_assoc] at hwf
      exact handlePad_preserves h hwf.1 hwf.2
  | dot s l r =>
      simp only [rewriteRoot] at h
      simp only [wf, Bool.and_eq_true, and_assoc] at hwf
      obtain ⟨hs, hw⟩ := handleDot_preserves h hwf.1 hwf.2
      exact ⟨by rw [Instr.shape, hs]; exact sameShape_refl _ s, hw⟩
  | param i s => simp [rewriteRoot] at h
  | iota s => simp [rewriteRoot] at h
  | add s l r => simp [rewriteRoot] at h
  | exp s x => simp [rewriteRoot] at h
  | broadcast s x => simp [rewriteRoot] at h
  | slice s x a b c => simp [rewriteRoot] at h
  | concatenate s ops d => simp [rewriteRoot] at h
  | dynamicSlice s x i sz => simp [rewriteRoot] at h
  | rng s lo hi => simp [rewriteRoot] at h
  | bitcast s x => simp [rewriteRoot] at h
  | reduce s x i d => simp [rewriteRoot] at h
  | tuple s ops => simp [rewriteRoot] at h

theorem applyRoot_preserves {opts : Options} {e : Instr} {c : Bool}
    (hwf : wf opts.isLayoutSensitive e = true) :
    sameShape opts.isLayoutSensitive (applyRoot opts e c).1.shape e.shape = true ∧
      wf opts.isLayoutSensitive (applyRoot opts e c).1 = true := by
  unfold applyRoot
  cases hx : rewriteRoot opts e with
  | none => exact ⟨sameShape_refl _ _, hwf⟩
  | some r => exact rewriteRoot_preserves hwf hx

/-- One driver sweep is shape-preserving on every well-formed instruction
tree, and preserves well-formedness. -/
theorem sweepB_preserves (opts : Options) (e : Instr)
    (hwf : wf opts.isLayoutSensitive e = true) :
    sameShape opts.isLayoutSensitive (sweepB opts e).1.shape e.shape = true ∧
      wf opts.isLayoutSensitive (sweepB opts e).1 = true := by
  have main : ∀ n (e : Instr), sizeOf e ≤ n →
      wf opts.isLayoutSensitive e = true →
      sameShape opts.isLayoutSensitive (sweepB opts e).1.shape e.shape = true ∧
        wf opts.isLayoutSensitive (sweepB opts e).1 = true := by
    intro n
    induction n with
    | zero =>
        intro e he
        cases e <;> simp [Instr.param.sizeOf_spec] at he
    | succ n ih =>
        have hlist : ∀ (ops : List Instr), (∀ x ∈ ops, sizeOf x ≤ n) →
            wfList opts.isLayoutSensitive ops = true →
            wfList opts.isLayoutSensitive (sweepList opts ops).1 = true := by
          intro ops
          induction ops with
          | nil => intro _ _; simp [sweepList, wfList]
          | cons x xs ihl =>
              intro hsz hwf
              simp only [wfList, Bool.and_eq_true] at hwf
              simp only [sweepList, wfList, Bool.and_eq_true]
              exact ⟨(ih x (hsz x (by simp)) hwf.1).2,
                ihl (fun y hy => hsz y (by simp [hy])) hwf.2⟩
        intro e he hwf
        cases e with
        | param i s =>
            simp only [sweepB]
            exact applyRoot_preserves hwf
        | constant s v =>
            simp only [sweepB]
            exact applyRoot_preserves hwf
        | iota s =>
            simp only [sweepB]
            exact applyRoot_preserves hwf
        | add s l r =>
            have hbl : sizeOf l < sizeOf (Instr.add s l r) := by
              simp [Instr.add.sizeOf_spec]
              try omega
            have hbr : sizeOf r < sizeOf (Instr.add s l r) := by
              simp [Instr.add.sizeOf_spec]
              try omega
            simp only [wf, Bool.and_eq_true, and_assoc] at hwf
            obtain ⟨h1, h2, hwl, hwr⟩ := hwf
            obtain ⟨sl, wl⟩ := ih l (by omega) hwl
            obtain ⟨sr, wr⟩ := ih r (by omega) hwr
            have wreb : wf opts.isLayoutSensitive
                (Instr.add s (sweepB opts l).1 (sweepB opts r).1) = true := by
              simp only [wf, Bool.and_eq_true, and_assoc]
              exact ⟨sameShape_trans sl h1, sameShape_trans sr h2, wl, wr⟩
            simp only [sweepB]
            exact applyRoot_preserves wreb
        | multiply s l r =>
            have hbl : sizeOf l < sizeOf (Instr.multiply s l r) := by
              simp [Instr.multiply.sizeOf_spec]
              try omega
            have hbr : sizeOf r < sizeOf (Instr.multiply s l r) := by
              simp [Instr.multiply.sizeOf_spec]
              try omega
            simp only [wf, Bool.and_eq_true, and_assoc] at hwf
            obtain ⟨h1, h2, hwl, hwr⟩ := hwf
            obtain ⟨sl, wl⟩ := ih l (by omega) hwl
            obtain ⟨sr, wr⟩ := ih r (by omega) hwr
            have wreb : wf opts.isLayoutSensitive
                (Instr.multiply s (sweepB opts l).1 (sweepB opts r).1) = true := by
              simp only [wf, Bool.and_eq_true, and_assoc]
              exact ⟨sameShape_trans sl h1, sameShape_trans sr h2, wl, wr⟩
            simp only [sweepB]
            exact applyRoot_preserves wreb
        | power s l r =>
            have hbl : sizeOf l < sizeOf (Instr.power s l r) := by
              simp [Instr.power.sizeOf_spec]
              try omega
            have hbr : sizeOf r < sizeOf (Instr.power s l r) := by
              simp [Instr.power.sizeOf_spec]
              try omega
            simp only [wf, Bool.and_eq_true, and_assoc] at hwf
            obtain ⟨h1, h2, hwl, hwr⟩ := hwf
            obtain ⟨sl, wl⟩ := ih l (by omega) hwl
            obtain ⟨sr, wr⟩ := ih r (by omega) hwr
            have wreb : wf opts.isLayoutSensitive
                (Instr.power s (sweepB opts l).1 (sweepB opts r).1) = true := by
              simp only [wf, Bool.and_eq_true, and_assoc]
              exact ⟨sameShape_trans sl h1, sameShape_trans sr h2, wl, wr⟩
            simp only [sweepB]
            exact applyRoot_preserves wreb
        | exp s x =>
            have hbx : sizeOf x < sizeOf (Instr.exp s x) := by
              simp [Instr.exp.sizeOf_spec]
              try omega
            simp only [wf, Bool.and_eq_true, and_assoc] at hwf
            obtain ⟨h1, hwx⟩ := hwf
            obtain ⟨sx, wx⟩ := ih x (by omega) hwx
            have wreb : wf opts.isLayoutSensitive
                (Instr.exp s (sweepB opts x).1) = true := by
              simp only [wf, Bool.and_eq_true, and_assoc]
              exact ⟨sameShape_trans sx h1, wx⟩
            simp only [sweepB]
            exact applyRoot_preserves wreb
        | log s x =>
            have hbx : sizeOf x < sizeOf (Instr.log s x) := by
              simp [Instr.log.sizeOf_spec]
              try omega
            simp only [wf, Bool.and_eq_true, and_assoc] at hwf
            obtain ⟨h1, hwx⟩ := hwf
            obtain ⟨sx, wx⟩ := ih x (by omega) hwx
            have wreb : wf opts.isLayoutSensitive
                (Instr.log s (sweepB opts x).1) = true := by
              simp only [wf, Bool.and_eq_true, and_assoc]
              exact ⟨sameShape_trans sx h1, wx⟩
            simp only [sweepB]
            exact applyRoot_preserves wreb
        | reshape s x =>
            have hbx : sizeOf x < sizeOf (Instr.reshape s x) := by
              simp [Instr.reshape.sizeOf_spec]
              try omega
            simp only [wf] at hwf
            obtain ⟨_, wx⟩ := ih x (by omega) hwf
            have wreb : wf opts.isLayoutSensitive
                (Instr.reshape s (sweepB opts x).1) = true := by
              simpa [wf] using wx
            simp only [sweepB]
            exact applyRoot_preserves wreb
        | transpose s x perm =>
            have hbx : sizeOf x < sizeOf (Instr.transpose s x perm) := by
              simp [Instr.transpose.sizeOf_spec]
              try omega
            simp only [wf] at hwf
            obtain ⟨_, wx⟩ := ih x (by omega) hwf
            have wreb : wf opts.isLayoutSensitive
                (Instr.transpose s (sweepB opts x).1 perm) = true := by
              simpa [wf] using wx
            simp only [sweepB]
            exact applyRoot_preserves wreb
        | broadcast s x =>
            have hbx : sizeOf x < sizeOf (Instr.broadcast s x) := by
              simp [Instr.broadcast.sizeOf_spec]
              try omega
            simp only [wf] at hwf
            obtain ⟨_, wx⟩ := ih x (by omega) hwf
            have wreb : wf opts.isLayoutSensitive
                (Instr.broadcast s (sweepB opts x).1) = true := by
              simpa [wf] using wx
            simp only [sweepB]
            exact applyRoot_preserves wreb
        | slice s x st li str =>
            have hbx : sizeOf x < sizeOf (Instr.slice s x st li str) := by
              simp [Instr.slice.sizeOf_spec]
              try omega
            simp only [wf] at hwf
            obtain ⟨_, wx⟩ := ih x (by omega) hwf
            have wreb : wf opts.isLayoutSensitive
                (Instr.slice s (sweepB opts x).1 st li str) = true := by
              simpa [wf] using wx
            simp only [sweepB]
            exact applyRoot_preserves wreb
        | concatenate s ops d =>
            have hmem : ∀ x ∈ ops, sizeOf x ≤ n := by
              intro x hx
              have h1 := List.sizeOf_lt_of_mem hx
              have h2 : sizeOf (Instr.concatenate s ops d) ≤ n + 1 := he
              simp [Instr.concatenate.sizeOf_spec] at h2
              omega
            simp only [wf] at hwf
            have wreb : wf opts.isLayoutSensitive
                (Instr.concatenate s (sweepList opts ops).1 d) = true := by
              simpa [wf] using hlist ops hmem hwf
            simp only [sweepB]
            exact applyRoot_preserves wreb
        | pad s x v cfg =>
            have hbx : sizeOf x < sizeOf (Instr.pad s x v cfg) := by
              simp [Instr.pad.sizeOf_spec]
              try omega
            have hbv : sizeOf v < sizeOf (Instr.pad s x v cfg) := by
              simp [Instr.pad.sizeOf_spec]
              try omega
            simp only [wf, Bool.and_eq_true, and_assoc] at hwf
            obtain ⟨hwx, hwv⟩ := hwf
            obtain ⟨_, wx⟩ := ih x (by omega) hwx
            obtain ⟨_, wv⟩ := ih v (by omega) hwv
            have wreb : wf opts.isLayoutSensitive
                (Instr.pad s (sweepB opts x).1 (sweepB opts v).1 cfg) = true := by
              simp [wf, wx, wv]
            simp only [sweepB]
            exact applyRoot_preserves wreb
        | dynamicSlice s x idx sz =>
            have hbx : sizeOf x < sizeOf (Instr.dynamicSlice s x idx sz) := by
              simp [Instr.dynamicSlice.sizeOf_spec]
              try omega
            have hbi : sizeOf idx < sizeOf (Instr.dynamicSlice s x idx sz) := by
              simp [Instr.dynamicSlice.sizeOf_spec]
              try omega
            simp only [wf, Bool.and_eq_true, and_assoc] at hwf
            obtain ⟨hwx, hwi⟩ := hwf
            obtain ⟨_, wx⟩ := ih x (by omega) hwx
            obtain ⟨_, wi⟩ := ih idx (by omega) hwi
            have wreb : wf opts.isLayoutSensitive
                (Instr.dynamicSlice s (sweepB opts x).1 (sweepB opts idx).1 sz) = true := by
              simp [wf, wx, wi]
            simp only [sweepB]
            exact applyRoot_preserves wreb
        | dynamicUpdateSlice s op upd idx =>
            have hbo : sizeOf op < sizeOf (Instr.dynamicUpdateSlice s op upd idx) := by
              simp [Instr.dynamicUpdateSlice.sizeOf_spec]
              try omega
            have hbu : sizeOf upd < sizeOf (Instr.dynamicUpdateSlice s op upd idx) := by
              simp [Instr.dynamicUpdateSlice.sizeOf_spec]
              try omega
            have hbi : sizeOf idx < sizeOf (Instr.dynamicUpdateSlice s op upd idx) := by
              simp [Instr.dynamicUpdateSlice.sizeOf_spec]
              try omega
            simp only [wf, Bool.and_eq_true, and_assoc] at hwf
            obtain ⟨h1, hwo, hwu, hwi⟩ := hwf
            obtain ⟨so, wo⟩ := ih op (by omega) hwo
            obtain ⟨_, wu⟩ := ih upd (by omega) hwu
            obtain ⟨_, wi⟩ := ih idx (by omega) hwi
            have wreb : wf opts.isLayoutSensitive
                (Instr.dynamicUpdateSlice s (sweepB opts op).1 (sweepB opts upd).1
                  (sweepB opts idx).1) = true := by
              simp only [wf, Bool.and_eq_true, and_assoc]
              exact ⟨sameShape_trans so h1, wo, wu, wi⟩
            simp only [sweepB]
            exact applyRoot_preserves wreb
        | dot s l r =>
            have hbl : sizeOf l < sizeOf (Instr.dot s l r) := by
              simp [Instr.dot.sizeOf_spec]
              try omega
            have hbr : sizeOf r < sizeOf (Instr.dot s l r) := by
              simp [Instr.dot.sizeOf_spec]
              try omega
            simp only [wf, Bool.and_eq_true, and_assoc] at hwf
            obtain ⟨hwl, hwr⟩ := hwf
            obtain ⟨_, wl⟩ := ih l (by omega) hwl
            obtain ⟨_, wr⟩ := ih r (by omega) hwr
            have wreb : wf opts.isLayoutSensitive
                (Instr.dot s (sweepB opts l).1 (sweepB opts r).1) = true := by
              simp [wf, wl, wr]
            simp only [sweepB]
            exact applyRoot_preserves wreb
        | rng s lo hi =>
            have hbl : sizeOf lo < sizeOf (Instr.rng s lo hi) := by
              simp [Instr.rng.sizeOf_spec]
              try omega
            have hbh : sizeOf hi < sizeOf (Instr.rng s lo hi) := by
              simp [Instr.rng.sizeOf_spec]
              try omega
            simp only [wf, Bool.and_eq_true, and_assoc] at hwf
            obtain ⟨hwl, hwh⟩ := hwf
            obtain ⟨_, wl⟩ := ih lo (by omega) hwl
            obtain ⟨_, wh⟩ := ih hi (by omega) hwh
            have wreb : wf opts.isLayoutSensitive
                (Instr.rng s (sweepB opts lo).1 (sweepB opts hi).1) = true := by
              simp [wf, wl, wh]
            simp only [sweepB]
            exact applyRoot_preserves wreb
        | bitcast s x =>
            have hbx : sizeOf x < sizeOf (Instr.bitcast s x) := by
              simp [Instr.bitcast.sizeOf_spec]
              try omega
            simp only [wf] at hwf
            obtain ⟨_, wx⟩ := ih x (by omega) hwf
            have wreb : wf opts.isLayoutSensitive
                (Instr.bitcast s (sweepB opts x).1) = true := by
              simpa [wf] using wx
            simp only [sweepB]
            exact applyRoot_preserves wreb
        | reduce s x init dims =>
            have hbx : sizeOf x < sizeOf (Instr.reduce s x init dims) := by
              simp [Instr.reduce.sizeOf_spec]
              try omega
            have hbi : sizeOf init < sizeOf (Instr.reduce s x init dims) := by
              simp [Instr.reduce.sizeOf_spec]
              try omega
            simp only [wf, Bool.and_eq_true, and_assoc] at hwf
            obtain ⟨hwx, hwi⟩ := hwf
            obtain ⟨_, wx⟩ := ih x (by omega) hwx
            obtain ⟨_, wi⟩ := ih init (by omega) hwi
            have wreb : wf opts.isLayoutSensitive
                (Instr.reduce s (sweepB opts x).1 (sweepB opts init).1 dims) = true := by
              simp [wf, wx, wi]
            simp only [sweepB]
            exact applyRoot_preserves wreb
        | tuple s ops =>
            have hmem : ∀ x ∈ ops, sizeOf x ≤ n := by
              intro x hx
              have h1 := List.sizeOf_lt_of_mem hx
              have h2 : sizeOf (Instr.tuple s ops) ≤ n + 1 := he
              simp [Instr.tuple.sizeOf_spec] at h2
              omega
            simp only [wf] at hwf
            have wreb : wf opts.isLayoutSensitive
                (Instr.tuple s (sweepList opts ops).1) = true := by
              simpa [wf] using hlist ops hmem hwf
            simp only [sweepB]
            exact applyRoot_preserves wreb
  exact main (sizeOf e) e (Nat.le_refl _) hwf

/-- The driver's fixed-point loop is shape-preserving on well-formed
instruction trees and preserves well-formedness. -/
theorem runToFixedPoint_preserves (opts : Options) :
    ∀ (fuel : Nat) (e : Instr) (c : Bool),
      wf opts.isLayoutSensitive e = true →
      sameShape opts.isLayoutSensitive
          (runToFixedPoint opts fuel e c).1.shape e.shape = true ∧
        wf opts.isLayoutSensitive (runToFixedPoint opts fuel e c).1 = true := by
  intro fuel
  induction fuel with
  | zero =>
      intro e c hwf
      exact ⟨sameShape_refl _ _, hwf⟩
  | succ n ih =>
      intro e c hwf
      obtain ⟨hs, hw⟩ := sweepB_preserves opts e hwf
      simp only [runToFixedPoint]
      by_cases hc : (sweepB opts e).2 = true
      · simp only [hc, if_true]
        obtain ⟨hs2, hw2⟩ := ih (sweepB opts e).1 true hw
        exact ⟨sameShape_trans hs2 hs, hw2⟩
      · simp only [Bool.not_eq_true] at hc
        simp only [hc, Bool.false_eq_true, if_false]
        exact ⟨sameShape_refl _ _, hwf⟩

/-- When a sweep of the current module reports no change, the fixed-point
loop stops immediately and returns the module unchanged. -/
theorem runToFixedPoint_stall {opts : Options} {e : Instr}
    (h : (sweepB opts e).2 = false) :
    ∀ (fuel : Nat) (c : Bool), runToFixedPoint opts fuel e c = (e, c) := by
  intro fuel c
  cases fuel with
  | zero => rfl
  | succ n => simp [runToFixedPoint, h]

/-- When the first sweep rewrites the module to a sweep-fixed point, the
loop returns that module after the second (unchanged) sweep, reporting a
change, for any positive fuel. -/
theorem runToFixedPoint_two {opts : Options} {e e1 : Instr}
    (h1 : sweepB opts e = (e1, true)) (h2 : (sweepB opts e1).2 = false) :
    ∀ (n : Nat) (c : Bool), runToFixedPoint opts (n + 1) e c = (e1, true) := by
  intro n c
  simp only [runToFixedPoint, h1, if_true]
  exact runToFixedPoint_stall h2 n true

/-- The loop of the negative-padding rule computes exactly the
claim-language description: clamped edges, padded dimensions, low-side
trims, and high-side-trimmed limits. -/
theorem negPadLoop_eq :
    ∀ (cfg : List (Int × Int × Int)) (ds : List Nat), cfg.length = ds.length →
      negPadLoop cfg ds =
        (cfg.map clampEdges, specPaddedDims cfg ds, cfg.map lowTrim,
          List.zipWith (fun c d => specPaddedDim c d - highTrim c) cfg ds) := by
  intro cfg
  induction cfg with
  | nil =>
      intro ds h
      cases ds with
      | nil => rfl
      | cons d ds' => simp at h
  | cons c cfg ihc =>
      intro ds h
      cases ds with
      | nil => simp at h
      | cons d ds' =>
          obtain ⟨l, hh, ii⟩ := c
          simp only [List.length_cons, Nat.succ.injEq] at h
          simp [negPadLoop, ihc ds' h, clampEdges, lowTrim, highTrim,
            specPaddedDim, specPaddedDims]

/-- The clamped config has no negative edge padding. -/
theorem clampEdges_nonneg (cfg : List (Int × Int × Int)) :
    hasNegativePadding (cfg.map clampEdges) = false := by
  induction cfg with
  | nil => rfl
  | cons c cfg ihc =>
      simp only [List.map_cons, hasNegativePadding, List.any_cons,
        Bool.or_eq_false_iff] at ihc ⊢
      refine ⟨?_, ihc⟩
      simp only [clampEdges, Bool.or_eq_false_iff, decide_eq_false_iff_not, not_lt]
      exact ⟨le_max_right _ _, le_max_right _ _⟩

/-- A sweep leaves a parameter unchanged. -/
theorem sweepB_param (opts : Options) (i : Nat) (s : Shape) :
    sweepB opts (.param i s) = (.param i s, false) := by
  simp [sweepB, applyRoot, rewriteRoot]

/-- A sweep leaves a transpose of a parameter unchanged (no transpose
rule fires on a parameter operand). -/
theorem sweepB_transpose_param (opts : Options) (s s2 : Shape) (i : Nat)
    (p : List Nat) :
    sweepB opts (.transpose s (.param i s2) p) = (.transpose s (.param i s2) p, false) := by
  simp [sweepB, applyRoot, rewriteRoot, handleTranspose]

/-- Unfolding of one sweep step at a dot instruction: sweep the operands,
rebuild, and apply the rule table at the root. -/
theorem sweepB_dot (opts : Options) (s : Shape) (l r : Instr) :
    sweepB opts (.dot s l r) =
      applyRoot opts (.dot s (sweepB opts l).1 (sweepB opts r).1)
        ((sweepB opts l).2 || (sweepB opts r).2) := by
  simp only [sweepB]

/-- The accumulator loop of the constant-LHS dot-of-concatenate rule
computes exactly the claim-language description: starting from any
summand, it returns the left-nested sum of one dot per remaining piece,
each slicing the constant at the running offset. -/
theorem buildDotLhsConst_eq (s cs : Shape) (c : Instr) :
    ∀ (ps : List Instr) (off : Nat) (a : Instr),
      buildDotLhsConst s cs c off ps (some a)
        = some (leftNestedSum s a (specPieceDotsLhs s cs c off ps)) := by
  intro ps
  induction ps with
  | nil => intro off a; rfl
  | cons p ps ih =>
      intro off a
      simp only [buildDotLhsConst, specPieceDotsLhs, leftNestedSum]
      exact ih _ _

/-- The accumulator loop of the constant-RHS dot-of-concatenate rule
computes exactly the claim-language description. -/
theorem buildDotRhsConst_eq (s cs : Shape) (c : Instr) :
    ∀ (ps : List Instr) (off : Nat) (a : Instr),
      buildDotRhsConst s cs c off ps (some a)
        = some (leftNestedSum s a (specPieceDotsRhs s cs c off ps)) := by
  intro ps
  induction ps with
  | nil => intro off a; rfl
  | cons p ps ih =>
      intro off a
      simp only [buildDotRhsConst, specPieceDotsRhs, leftNestedSum]
      exact ih _ _

/-- A left-nested sum whose initial summand has the target shape has the
target shape (the added dots all carry it by construction). -/
theorem leftNestedSum_shape (s : Shape) :
    ∀ (ds : List Instr) (a : Instr), a.shape = s → (leftNestedSum s a ds).shape = s := by
  intro ds
  induction ds with
  | nil => intro a h; exact h
  | cons d ds ih => intro a _; exact ih (.add s a d) rfl

/-! ## The claims -/

/-- C1, counterexample: the claim states that for floating-point
instructions the `log(exp(x)) → x` rewrite fires only when a
caller-supplied fast-math flag is set, and that with the flag absent the
rule returns no change.  The options structure has no fast-math field at
all, and on the scalar-f32 module of test `AlgebraicSimplifierTest.LnExp`
the log rule fires and the run reports a change, refuting the claim at
this concrete input. -/
theorem c1_counterexample :
    rewriteRoot defaultOptions lnExpModule = some (.param 0 r0f32) ∧
      simplify defaultOptions 25 lnExpModule = (.param 0 r0f32, true) := ⟨rfl, rfl⟩

/-- C1, amended: the `x × 0 → 0` rewrite fires only when the element type
is integral — on a multiply of any floating-point element type the
multiply rule returns no change (there is no fast-math flag to consult) —
while the `log(exp(x)) → x` rewrite is not gated on the element type and
fires for every log-of-exp instruction, floating point included. -/
theorem c1_amended :
    (∀ (opts : Options) (s : Shape) (l r : Instr),
        s.elementType.isFloatingPoint = true →
        rewriteRoot opts (.multiply s l r) = none) ∧
    ∀ (opts : Options) (s s2 : Shape) (a : Instr),
        rewriteRoot opts (.log s (.exp s2 a)) = some a := by
  constructor
  · intro opts s l r hf
    have hi : s.elementType.isIntegral = false := by
      cases h : s.elementType <;>
        simp_all [PrimitiveType.isIntegral, PrimitiveType.isFloatingPoint]
    simp [rewriteRoot, handleMultiply, hi]
  · intro opts s s2 a
    rfl

/-- C1, witness: the amended theorem applied at scalar f32 — a
floating-point multiply by a zero constant is left unchanged, and
log-of-exp is rewritten to its argument. -/
theorem c1_witness :
    r0f32.elementType.isFloatingPoint = true ∧
      rewriteRoot defaultOptions
        (.multiply r0f32 (.param 0 r0f32) (.constant r0f32 [0])) = none ∧
      rewriteRoot defaultOptions lnExpModule = some (.param 0 r0f32) := by
  refine ⟨by decide, ?_, ?_⟩
  · exact c1_amended.1 defaultOptions r0f32 _ _ (by decide)
  · exact c1_amended.2 defaultOptions r0f32 r0f32 _

/-- C2: every rewrite is shape-preserving — whenever a rule replaces a
well-formed instruction, the replacement's shape agrees with the
original's (element type and dimensions always, and the layout as well in
layout-sensitive mode), and consequently the root of `simplify(M)` has
the same shape as the root of `M` for every fuel. -/
theorem c2_shape_preservation (opts : Options) (e : Instr)
    (hwf : wf opts.isLayoutSensitive e = true) :
    (∀ e', rewriteRoot opts e = some e' →
        sameShape opts.isLayoutSensitive e'.shape e.shape = true) ∧
      ∀ fuel, sameShape opts.isLayoutSensitive
          (simplify opts fuel e).1.shape e.shape = true := by
  constructor
  · intro e' h
    exact (rewriteRoot_preserves hwf h).1
  · intro fuel
    exact (runToFixedPoint_preserves opts fuel e false hwf).1

/-- C2, witness: shape preservation applied to the concrete `LnExp`
module, whose well-formedness is checked by evaluation. -/
theorem c2_witness :
    wf defaultOptions.isLayoutSensitive lnExpModule = true ∧
      sameShape defaultOptions.isLayoutSensitive
        (simplify defaultOptions 25 lnExpModule).1.shape lnExpModule.shape = true :=
  ⟨by decide, (c2_shape_preservation defaultOptions lnExpModule (by decide)).2 25⟩

/-- C3, counterexample: the claim states that each individual rule
applied to its own output is a no-op.  On the nested power chain
`pow(pow(pow(p0, p1), p2), p3)` the power-of-power rule produces
`pow(pow(p0, p1), p2 × p3)`, and applying the rule again to this very
output fires once more — the rule is not a no-op on its own output. -/
theorem c3_counterexample :
    rewriteRoot defaultOptions powerChainModule
      = some (.power r1f32 (.power r1f32 (.param 0 r1f32) (.param 1 r1f32))
          (.multiply r1f32 (.param 2 r1f32) (.param 3 r1f32))) ∧
    rewriteRoot defaultOptions
      (.power r1f32 (.power r1f32 (.param 0 r1f32) (.param 1 r1f32))
        (.multiply r1f32 (.param 2 r1f32) (.param 3 r1f32)))
      = some (.power r1f32 (.param 0 r1f32)
          (.multiply r1f32 (.param 1 r1f32)
            (.multiply r1f32 (.param 2 r1f32) (.param 3 r1f32)))) := ⟨rfl, rfl⟩

/-- C3, amended: whole-pass idempotence holds at the driver's fixed
point — whenever a run of the simplifier leaves a module on which a
further sweep reports no change (that is, the run stopped at its fixed
point rather than at the iteration cap), running the simplifier again,
with any iteration budget, returns the very same module and reports no
change.  (An individual rule applied to its own output, by contrast, may
fire again; see the counterexample.) -/
theorem c3_amended (opts : Options) (f g : Nat) (e : Instr)
    (h : (sweepB opts (simplify opts f e).1).2 = false) :
    simplify opts g (simplify opts f e).1 = ((simplify opts f e).1, false) :=
  runToFixedPoint_stall h g false

/-- C3, witness: the amended idempotence applied to the simplified
`LnExp` module, whose fixed-point property is checked by evaluation. -/
theorem c3_witness :
    (sweepB defaultOptions (simplify defaultOptions 25 lnExpModule).1).2 = false ∧
      simplify defaultOptions 25 (simplify defaultOptions 25 lnExpModule).1
        = ((simplify defaultOptions 25 lnExpModule).1, false) :=
  ⟨rfl, c3_amended defaultOptions 25 25 lnExpModule rfl⟩

/-- C4: a dynamic-update-slice whose update has the same shape as the
operand being updated (hence the same shape as the instruction itself)
and whose start indices are all zero is replaced by the update. -/
theorem c4_trivial_dynamic_update_slice (opts : Options) (s : Shape)
    (op upd idx : Instr) (h1 : upd.shape = op.shape) (h2 : op.shape = s)
    (_h3 : isAllValue 0 idx = true) :
    rewriteRoot opts (.dynamicUpdateSlice s op upd idx) = some upd := by
  simp only [rewriteRoot, handleDynamicUpdateSlice]
  rw [h1, h2]
  simp [sameShape_refl]

/-- C4, witness: the rule applied to the shapes of test
`TrivialDynamicUpdateSlice` with explicit all-zero start indices. -/
theorem c4_witness :
    (Instr.shape (.dynamicSlice (mkShape .F32 [10, 1, 1000])
          (.param 0 (mkShape .F32 [10, 100, 1000])) (.param 1 (mkShape .U32 [3]))
          [10, 1, 1000])
        = Instr.shape (.param 2 (mkShape .F32 [10, 1, 1000]))) ∧
      isAllValue 0 (.constant (mkShape .S32 [3]) [0, 0, 0]) = true ∧
      rewriteRoot defaultOptions
          (.dynamicUpdateSlice (mkShape .F32 [10, 1, 1000])
            (.param 2 (mkShape .F32 [10, 1, 1000]))
            (.dynamicSlice (mkShape .F32 [10, 1, 1000])
              (.param 0 (mkShape .F32 [10, 100, 1000])) (.param 1 (mkShape .U32 [3]))
              [10, 1, 1000])
            (.constant (mkShape .S32 [3]) [0, 0, 0]))
        = some (.dynamicSlice (mkShape .F32 [10, 1, 1000])
            (.param 0 (mkShape .F32 [10, 100, 1000])) (.param 1 (mkShape .U32 [3]))
            [10, 1, 1000]) :=
  ⟨rfl, by decide,
    c4_trivial_dynamic_update_slice defaultOptions _ _ _ _ rfl rfl (by decide)⟩

/-- C5: every power-of-power instruction is rewritten to
`pow(a, x × y)` with the exponents combined by a fresh multiply
instruction (no constant folding), except when the element type is
complex, in which case the rule returns no change — and on the concrete
c64 module of test `PowerOfPowerComplex` the whole run reports no
change. -/
theorem c5_power_of_power :
    (∀ (opts : Options) (s s2 : Shape) (a x y : Instr),
        rewriteRoot opts (.power s (.power s2 a x) y) =
          if s.elementType.isComplexType = true then none
          else some (.power s a (.multiply s x y))) ∧
      simplify defaultOptions 25 powerOfPowerComplexModule
        = (powerOfPowerComplexModule, false) := by
  refine ⟨?_, rfl⟩
  intro opts s s2 a x y
  rfl

/-- C6: for every dot whose left operand is a constant and whose right
operand is a concatenation (of any nonempty list of pieces, over any
shapes and constant values) along the contracting dimension — dimension
0 of the right operand — the simplifier rewrites the dot into the
left-nested sum of one dot per concatenation piece, each taking the
matching contiguous slice of the constant starting where the previous
piece ended, and the result's shape is the original dot's shape; the
symmetric rewrite applies when the constant is the right operand and the
concatenation runs along dimension 1 of the left operand.  The final two
conjuncts evaluate the rewrite on the concrete modules of tests
`DotOfConcatSimplificationTest.ConstantLHS` (3×9 constant, pieces of
3+3+3 rows) and `.ConstantRHS` (4×3 constant, pieces of 1+1+1+1
columns) against the explicit expected instruction trees. -/
theorem c6_dot_of_concat :
    (∀ (opts : Options) (s cs cc : Shape) (cv : List Int) (p : Instr) (ps : List Instr),
        rewriteRoot opts (.dot s (.constant cs cv) (.concatenate cc (p :: ps) 0))
          = some (leftNestedSum s (specPieceDotLhs s cs (.constant cs cv) 0 p)
              (specPieceDotsLhs s cs (.constant cs cv) (p.shape.dims.getD 0 0) ps)) ∧
        (leftNestedSum s (specPieceDotLhs s cs (.constant cs cv) 0 p)
            (specPieceDotsLhs s cs (.constant cs cv) (p.shape.dims.getD 0 0) ps)).shape = s) ∧
    (∀ (opts : Options) (s cs cc : Shape) (cv : List Int) (p : Instr) (ps : List Instr),
        rewriteRoot opts (.dot s (.concatenate cc (p :: ps) 1) (.constant cs cv))
          = some (leftNestedSum s (specPieceDotRhs s cs (.constant cs cv) 0 p)
              (specPieceDotsRhs s cs (.constant cs cv) (p.shape.dims.getD 1 0) ps)) ∧
        (leftNestedSum s (specPieceDotRhs s cs (.constant cs cv) 0 p)
            (specPieceDotsRhs s cs (.constant cs cv) (p.shape.dims.getD 1 0) ps)).shape = s) ∧
    (rewriteRoot defaultOptions dotOfConcatLhsModule
      = some (.add (mkShape .F32 [3, 3])
          (.add (mkShape .F32 [3, 3])
            (.dot (mkShape .F32 [3, 3])
              (.slice (mkShape .F32 [3, 3]) (.constant (mkShape .F32 [3, 9]) (linspace 27))
                [0, 0] [3, 3] [1, 1])
              (.param 0 (mkShape .F32 [3, 3])))
            (.dot (mkShape .F32 [3, 3])
              (.slice (mkShape .F32 [3, 3]) (.constant (mkShape .F32 [3, 9]) (linspace 27))
                [0, 3] [3, 6] [1, 1])
              (.param 1 (mkShape .F32 [3, 3]))))
          (.dot (mkShape .F32 [3, 3])
            (.slice (mkShape .F32 [3, 3]) (.constant (mkShape .F32 [3, 9]) (linspace 27))
              [0, 6] [3, 9] [1, 1])
            (.param 2 (mkShape .F32 [3, 3]))))) ∧
    (rewriteRoot defaultOptions dotOfConcatRhsModule
      = some (.add (mkShape .F32 [2, 3])
          (.add (mkShape .F32 [2, 3])
            (.add (mkShape .F32 [2, 3])
              (.dot (mkShape .F32 [2, 3]) (.param 0 (mkShape .F32 [2, 1]))
                (.slice (mkShape .F32 [1, 3]) (.constant (mkShape .F32 [4, 3]) (linspace 12))
                  [0, 0] [1, 3] [1, 1]))
              (.dot (mkShape .F32 [2, 3]) (.param 1 (mkShape .F32 [2, 1]))
                (.slice (mkShape .F32 [1, 3]) (.constant (mkShape .F32 [4, 3]) (linspace 12))
                  [1, 0] [2, 3] [1, 1])))
            (.dot (mkShape .F32 [2, 3]) (.param 2 (mkShape .F32 [2, 1]))
              (.slice (mkShape .F32 [1, 3]) (.constant (mkShape .F32 [4, 3]) (linspace 12))
                [2, 0] [3, 3] [1, 1])))
          (.dot (mkShape .F32 [2, 3]) (.param 3 (mkShape .F32 [2, 1]))
            (.slice (mkShape .F32 [1, 3]) (.constant (mkShape .F32 [4, 3]) (linspace 12))
              [3, 0] [4, 3] [1, 1])))) := by
  refine ⟨?_, ?_, rfl, rfl⟩
  · intro opts s cs cc cv p ps
    have hx : dotOfConcat s (.constant cs cv) (.concatenate cc (p :: ps) 0)
        = some (leftNestedSum s (specPieceDotLhs s cs (.constant cs cv) 0 p)
            (specPieceDotsLhs s cs (.constant cs cv) (p.shape.dims.getD 0 0) ps)) := by
      simp only [dotOfConcat, List.isEmpty_cons, Bool.not_false, Bool.and_self,
        beq_self_eq_true, if_true]
      have h := buildDotLhsConst_eq s cs (.constant cs cv) ps (0 + p.shape.dims.getD 0 0)
        (specPieceDotLhs s cs (.constant cs cv) 0 p)
      simpa [buildDotLhsConst, specPieceDotLhs] using h
    refine ⟨by simp [rewriteRoot, handleDot, hx], ?_⟩
    exact leftNestedSum_shape s _ _ rfl
  · intro opts s cs cc cv p ps
    have hx : dotOfConcat s (.concatenate cc (p :: ps) 1) (.constant cs cv)
        = some (leftNestedSum s (specPieceDotRhs s cs (.constant cs cv) 0 p)
            (specPieceDotsRhs s cs (.constant cs cv) (p.shape.dims.getD 1 0) ps)) := by
      simp only [dotOfConcat, List.isEmpty_cons, Bool.not_false, Bool.and_self,
        beq_self_eq_true, if_true]
      have h := buildDotRhsConst_eq s cs (.constant cs cv) ps (0 + p.shape.dims.getD 1 0)
        (specPieceDotRhs s cs (.constant cs cv) 0 p)
      simpa [buildDotRhsConst, specPieceDotRhs] using h
    refine ⟨by simp [rewriteRoot, handleDot, hx], ?_⟩
    exact leftNestedSum_shape s _ _ rfl

/-- C7: a pad instruction with a negative edge-padding amount in some
dimension is replaced by a slice of a pad whose edge amounts are the
clamped nonnegative parts of the originals, where the slice trims, on
each side of each dimension, exactly the magnitude of the original
negative amount (low trims as start indices, high trims subtracted from
the padded dimension as limits, all strides one), and the intermediate
pad has no negative edge padding. -/
theorem c7_negative_padding (opts : Options) (s : Shape) (x v : Instr)
    (cfg : List (Int × Int × Int))
    (hneg : hasNegativePadding cfg = true)
    (hlen : cfg.length = x.shape.dims.length) :
    rewriteRoot opts (.pad s x v cfg) =
      some (.slice s
        (.pad ⟨s.elementType, specPaddedDims cfg x.shape.dims,
            (List.range (specPaddedDims cfg x.shape.dims).length).reverse⟩
          x v (cfg.map clampEdges))
        (cfg.map lowTrim)
        (List.zipWith (fun c d => specPaddedDim c d - highTrim c) cfg x.shape.dims)
        (cfg.map (fun _ => 1))) ∧
    hasNegativePadding (cfg.map clampEdges) = false := by
  refine ⟨?_, clampEdges_nonneg cfg⟩
  simp only [rewriteRoot, handlePad, hneg, if_true]
  rw [negPadLoop_eq cfg x.shape.dims hlen]
  simp [List.map_map, Function.comp_def, List.map_const']

/-- C7, witness: the theorem applied to the module of test
`NegativePadding` — `pad(10×10, 0.0, low=[-1,-2], high=[2,-3])` of shape
11×5 becomes `slice(pad(10×10, low=[0,0], high=[2,0]))` trimming 1 and 2
on the low sides and 0 and 3 on the high sides. -/
theorem c7_witness :
    hasNegativePadding [((-1 : Int), (2 : Int), (0 : Int)),
        ((-2 : Int), (-3 : Int), (0 : Int))] = true ∧
      rewriteRoot defaultOptions negativePaddingModule
        = some (.slice (mkShape .F32 [11, 5])
            (.pad ⟨.F32, specPaddedDims [(-1, 2, 0), (-2, -3, 0)] [10, 10],
                (List.range (specPaddedDims [(-1, 2, 0), (-2, -3, 0)] [10, 10]).length).reverse⟩
              (.param 0 (mkShape .F32 [10, 10])) (.constant (scalarShape .F32) [0])
              ([(-1, 2, 0), (-2, -3, 0)].map clampEdges))
            ([(-1, 2, 0), (-2, -3, 0)].map lowTrim)
            (List.zipWith (fun c d => specPaddedDim c d - highTrim c)
              [(-1, 2, 0), (-2, -3, 0)] [10, 10])
            ([(-1, 2, 0), (-2, -3, 0)].map (fun _ => 1))) :=
  ⟨by decide,
    (c7_negative_padding defaultOptions (mkShape .F32 [11, 5])
      (.param 0 (mkShape .F32 [10, 10])) (.constant (scalarShape .F32) [0])
      [(-1, 2, 0), (-2, -3, 0)] (by decide) (by decide)).1⟩

/-- C8: whenever the reshape rule proposes a bitcast — layout-sensitive
mode, on a reshape that is bitcast-equivalent but not a no-op — the
`valid_bitcast_callback` is consulted: if the callback rejects the pair
of shapes, the rule returns no change (and on the concrete module of test
`NoBitcastAdded` the whole run leaves the module unchanged and reports no
change); if the callback permits it, the reshape is replaced by a
bitcast. -/
theorem c8_bitcast_callback :
    (∀ (cb : Shape → Shape → Bool) (s : Shape) (x : Instr),
        reshapeIsBitcast x.shape s = true →
        sameShape true x.shape s = false →
        isRngInstr x = false →
        rewriteRoot (layoutSensitiveOptions cb) (.reshape s x) =
          (if cb x.shape s = true then some (.bitcast s x) else none)) ∧
      simplify (layoutSensitiveOptions (fun _ _ => false)) 25 noBitcastModule
        = (noBitcastModule, false) := by
  refine ⟨?_, rfl⟩
  intro cb s x hbc hne hrng
  simp only [rewriteRoot, handleReshape, layoutSensitiveOptions, hne,
    Bool.false_eq_true, if_false]
  cases x <;>
    simp_all [isRngInstr, handleReshapeNontrivial, reshapeBitcastBranch,
      layoutSensitiveOptions]

/-- C8, witness: the theorem applied to the `transformable_reshape`
shapes of test `ReshapeReplacedWithBitcast` with the permitting
callback — the reshape is replaced by a bitcast. -/
theorem c8_witness :
    reshapeIsBitcast shape22 shapeReshapeOk = true ∧
      sameShape true shape22 shapeReshapeOk = false ∧
      isRngInstr (.param 0 shape22) = false ∧
      rewriteRoot (layoutSensitiveOptions (fun _ _ => true))
          (.reshape shapeReshapeOk (.param 0 shape22))
        = some (.bitcast shapeReshapeOk (.param 0 shape22)) := by
  refine ⟨by decide, by decide, rfl, ?_⟩
  have h := (c8_bitcast_callback).1 (fun _ _ => true) shapeReshapeOk
    (.param 0 shape22) (by decide) (by decide) rfl
  exact h.trans rfl

/-- C9, counterexample: the claim states that a constant whose elements
are not all equal is left unchanged and the run reports no change; the
rank-1 f32 constant `{0.0, 1.0, 2.0}` of test `IotaToBroadcast` has
unequal elements yet is rewritten to an `iota`, and the run reports a
change. -/
theorem c9_counterexample :
    rewriteRoot defaultOptions constantIotaModule = some (.iota (mkShape .F32 [3])) ∧
      simplify defaultOptions 25 constantIotaModule
        = (.iota (mkShape .F32 [3]), true) := ⟨rfl, rfl⟩

/-- C9, amended: a non-scalar constant whose elements are all equal is
rewritten to a broadcast of a scalar constant holding the common value;
a constant whose elements are neither all equal nor the consecutive
integers from zero (the iota pattern) is left unchanged — and on the
mixed constant `{3.14, 3.14, 4}` of test `ConstantNotToBroadcast` the
whole run reports no change. -/
theorem c9_amended :
    (∀ (opts : Options) (s : Shape) (vals : List Int),
        s.isScalar = false → vals ≠ [] →
        vals.all (· == vals.headD 0) = true →
        rewriteRoot opts (.constant s vals) =
          some (.broadcast s (.constant (scalarShape s.elementType) [vals.headD 0]))) ∧
    (∀ (opts : Options) (s : Shape) (vals : List Int),
        vals.all (· == vals.headD 0) = false →
        vals ≠ iotaLiteral vals.length →
        rewriteRoot opts (.constant s vals) = none) ∧
    simplify defaultOptions 25 constantMixedModule = (constantMixedModule, false) := by
  refine ⟨?_, ?_, rfl⟩
  · intro opts s vals h1 h2 h3
    have h2' : vals.isEmpty = false := by
      cases vals with
      | nil => exact absurd rfl h2
      | cons a l => rfl
    simp only [rewriteRoot, handleConstant, h1, h2', h3, Bool.not_false,
      Bool.and_true, Bool.and_self]
    simp
  · intro opts s vals h1 h2
    have hbeq : (vals == iotaLiteral vals.length) = false := by
      rw [beq_eq_false_iff_ne]
      exact h2
    simp only [rewriteRoot, handleConstant, h1, hbeq, Bool.and_false]
    simp

/-- C9, witness: the amended theorem applied to the all-equal constant of
test `ConstantToBroadcast` and to the mixed constant of test
`ConstantNotToBroadcast`. -/
theorem c9_witness :
    ((mkShape .F32 [3]).isScalar = false ∧
      rewriteRoot defaultOptions constantAllSameModule
        = some (.broadcast (mkShape .F32 [3]) (.constant (scalarShape .F32) [314]))) ∧
    rewriteRoot defaultOptions constantMixedModule = none := by
  constructor
  · refine ⟨by decide, ?_⟩
    exact (c9_amended).1 defaultOptions (mkShape .F32 [3]) [314, 314, 314]
      (by decide) (by decide) (by decide)
  · exact (c9_amended).2.1 defaultOptions (mkShape .F32 [3]) [314, 314, 400]
      (by decide) (by decide)

/-- C10: for the module family of test
`DotStrengthReductionTest.DotStrengthReduction` — a two-dimensional f32
dot with operand shapes m×k and k×n, each operand optionally a transpose
of a parameter — the simplifier eliminates the dot opcode from the
computation exactly when at least one of m, k, n equals 1 (including the
contracting dimension k), and it reports the module changed exactly when
a dimension equals 1 or both operands are transposes. -/
theorem c10_dot_strength_reduction (fuel m k n : Nat) (tl tr : Bool) :
    (simplify defaultOptions (fuel + 1) (dotStrengthModule m k n tl tr)).2
        = ((m == 1 || k == 1 || n == 1) || (tl && tr)) ∧
      containsDot (simplify defaultOptions (fuel + 1) (dotStrengthModule m k n tl tr)).1
        = !(m == 1 || k == 1 || n == 1) := by
  cases tl <;> cases tr <;> by_cases hb : (m == 1 || k == 1 || n == 1) = true
  · have hmod : dotStrengthModule m k n false false =
        .dot (mkShape .F32 [m, n]) (.param 0 (mkShape .F32 [m, k]))
          (.param 1 (mkShape .F32 [k, n])) := rfl
    have hroot : rewriteRoot defaultOptions (dotStrengthModule m k n false false)
        = some (.reduce (mkShape .F32 [m, n])
            (.multiply (mkShape .F32 [m, k, n])
              (.broadcast (mkShape .F32 [m, k, n]) (.param 0 (mkShape .F32 [m, k])))
              (.broadcast (mkShape .F32 [m, k, n]) (.param 1 (mkShape .F32 [k, n]))))
            (.constant (scalarShape .F32) [0]) [1]) := by
      simp [dotStrengthModule, rewriteRoot, handleDot, dotOfConcat,
        dotStrengthReduce, defaultOptions, Instr.shape, mkShape, hb, scalarShape]
    have h1 : sweepB defaultOptions (dotStrengthModule m k n false false)
        = ((.reduce (mkShape .F32 [m, n])
            (.multiply (mkShape .F32 [m, k, n])
              (.broadcast (mkShape .F32 [m, k, n]) (.param 0 (mkShape .F32 [m, k])))
              (.broadcast (mkShape .F32 [m, k, n]) (.param 1 (mkShape .F32 [k, n]))))
            (.constant (scalarShape .F32) [0]) [1] : Instr), true) := by
      rw [hmod, sweepB_dot, sweepB_param, sweepB_param]
      rw [← hmod]
      simp [applyRoot, hroot]
    have h2 : (sweepB defaultOptions
        ((.reduce (mkShape .F32 [m, n])
            (.multiply (mkShape .F32 [m, k, n])
              (.broadcast (mkShape .F32 [m, k, n]) (.param 0 (mkShape .F32 [m, k])))
              (.broadcast (mkShape .F32 [m, k, n]) (.param 1 (mkShape .F32 [k, n]))))
            (.constant (scalarShape .F32) [0]) [1] : Instr))).2 = false := by
      simp [sweepB, applyRoot, rewriteRoot, handleMultiply, handleConstant,
        mkShape, scalarShape, Shape.isScalar, PrimitiveType.isIntegral, defaultOptions]
    have hrun := runToFixedPoint_two h1 h2 fuel false
    constructor
    · show (runToFixedPoint defaultOptions (fuel + 1) (dotStrengthModule m k n false false) false).2 = _
      rw [hrun]; simp [hb]
    · show containsDot (runToFixedPoint defaultOptions (fuel + 1) (dotStrengthModule m k n false false) false).1 = _
      rw [hrun]; simp [containsDot, hb]
  · have hb' : (m == 1 || k == 1 || n == 1) = false := by simpa using hb
    have hmod : dotStrengthModule m k n false false =
        .dot (mkShape .F32 [m, n]) (.param 0 (mkShape .F32 [m, k]))
          (.param 1 (mkShape .F32 [k, n])) := rfl
    have hroot : rewriteRoot defaultOptions (dotStrengthModule m k n false false) = none := by
      simp [dotStrengthModule, rewriteRoot, handleDot, dotOfConcat, dotStrengthReduce,
        dotTransposeTranspose, defaultOptions, Instr.shape, mkShape, hb']
    have h1 : sweepB defaultOptions (dotStrengthModule m k n false false)
        = (dotStrengthModule m k n false false, false) := by
      rw [hmod, sweepB_dot, sweepB_param, sweepB_param]
      rw [← hmod]
      simp [applyRoot, hroot]
    have hrun := runToFixedPoint_stall (by rw [h1]) (fuel + 1) false
    constructor
    · show (runToFixedPoint defaultOptions (fuel + 1) (dotStrengthModule m k n false false) false).2 = _
      rw [hrun]; simp [hb']
    · show containsDot (runToFixedPoint defaultOptions (fuel + 1) (dotStrengthModule m k n false false) false).1 = _
      rw [hrun]; simp [hmod, containsDot, hb']
  · have hmod : dotStrengthModule m k n false true =
        .dot (mkShape .F32 [m, n]) (.param 0 (mkShape .F32 [m, k]))
          (.transpose (mkShape .F32 [k, n]) (.param 1 (mkShape .F32 [n, k])) [1, 0]) := rfl
    have hroot : rewriteRoot defaultOptions (dotStrengthModule m k n false true)
        = some (.reduce (mkShape .F32 [m, n])
            (.multiply (mkShape .F32 [m, k, n])
              (.broadcast (mkShape .F32 [m, k, n]) (.param 0 (mkShape .F32 [m, k])))
              (.broadcast (mkShape .F32 [m, k, n])
                (.transpose (mkShape .F32 [k, n]) (.param 1 (mkShape .F32 [n, k])) [1, 0])))
            (.constant (scalarShape .F32) [0]) [1]) := by
      simp [dotStrengthModule, rewriteRoot, handleDot, dotOfConcat,
        dotStrengthReduce, defaultOptions, Instr.shape, mkShape, hb, scalarShape]
    have h1 : sweepB defaultOptions (dotStrengthModule m k n false true)
        = ((.reduce (mkShape .F32 [m, n])
            (.multiply (mkShape .F32 [m, k, n])
              (.broadcast (mkShape .F32 [m, k, n]) (.param 0 (mkShape .F32 [m, k])))
              (.broadcast (mkShape .F32 [m, k, n])
                (.transpose (mkShape .F32 [k, n]) (.param 1 (mkShape .F32 [n, k])) [1, 0])))
            (.constant (scalarShape .F32) [0]) [1] : Instr), true) := by
      rw [hmod, sweepB_dot, sweepB_param, sweepB_transpose_param]
      rw [← hmod]
      simp [applyRoot, hroot]
    have h2 : (sweepB defaultOptions
        ((.reduce (mkShape .F32 [m, n])
            (.multiply (mkShape .F32 [m, k, n])
              (.broadcast (mkShape .F32 [m, k, n]) (.param 0 (mkShape .F32 [m, k])))
              (.broadcast (mkShape .F32 [m, k, n])
                (.transpose (mkShape .F32 [k, n]) (.param 1 (mkShape .F32 [n, k])) [1, 0])))
            (.constant (scalarShape .F32) [0]) [1] : Instr))).2 = false := by
      simp [sweepB, applyRoot, rewriteRoot, handleMultiply, handleConstant, handleTranspose,
        mkShape, scalarShape, Shape.isScalar, PrimitiveType.isIntegral, defaultOptions]
    have hrun := runToFixedPoint_two h1 h2 fuel false
    constructor
    · show (runToFixedPoint defaultOptions (fuel + 1) (dotStrengthModule m k n false true) false).2 = _
      rw [hrun]; simp [hb]
    · show containsDot (runToFixedPoint defaultOptions (fuel + 1) (dotStrengthModule m k n false true) false).1 = _
      rw [hrun]; simp [containsDot, hb]
  · have hb' : (m == 1 || k == 1 || n == 1) = false := by simpa using hb
    have hmod : dotStrengthModule m k n false true =
        .dot (mkShape .F32 [m, n]) (.param 0 (mkShape .F32 [m, k]))
          (.transpose (mkShape .F32 [k, n]) (.param 1 (mkShape .F32 [n, k])) [1, 0]) := rfl
    have hroot : rewriteRoot defaultOptions (dotStrengthModule m k n false true) = none := by
      simp [dotStrengthModule, rewriteRoot, handleDot, dotOfConcat, dotStrengthReduce,
        dotTransposeTranspose, defaultOptions, Instr.shape, mkShape, hb']
    have h1 : sweepB defaultOptions (dotStrengthModule m k n false true)
        = (dotStrengthModule m k n false true, false) := by
      rw [hmod, sweepB_dot, sweepB_param, sweepB_transpose_param]
      rw [← hmod]
      simp [applyRoot, hroot]
    have hrun := runToFixedPoint_stall (by rw [h1]) (fuel + 1) false
    constructor
    · show (runToFixedPoint defaultOptions (fuel + 1) (dotStrengthModule m k n false true) false).2 = _
      rw [hrun]; simp [hb']
    · show containsDot (runToFixedPoint defaultOptions (fuel + 1) (dotStrengthModule m k n false true) false).1 = _
      rw [hrun]; simp [hmod, containsDot, hb']
  · have hmod : dotStrengthModule m k n true false =
        .dot (mkShape .F32 [m, n])
          (.transpose (mkShape .F32 [m, k]) (.param 0 (mkShape .F32 [k, m])) [1, 0])
          (.param 1 (mkShape .F32 [k, n])) := rfl
    have hroot : rewriteRoot defaultOptions (dotStrengthModule m k n true false)
        = some (.reduce (mkShape .F32 [m, n])
            (.multiply (mkShape .F32 [m, k, n])
              (.broadcast (mkShape .F32 [m, k, n])
                (.transpose (mkShape .F32 [m, k]) (.param 0 (mkShape .F32 [k, m])) [1, 0]))
              (.broadcast (mkShape .F32 [m, k, n]) (.param 1 (mkShape .F32 [k, n]))))
            (.constant (scalarShape .F32) [0]) [1]) := by
      simp [dotStrengthModule, rewriteRoot, handleDot, dotOfConcat,
        dotStrengthReduce, defaultOptions, Instr.shape, mkShape, hb, scalarShape]
    have h1 : sweepB defaultOptions (dotStrengthModule m k n true false)
        = ((.reduce (mkShape .F32 [m, n])
            (.multiply (mkShape .F32 [m, k, n])
              (.broadcast (mkShape .F32 [m, k, n])
                (.transpose (mkShape .F32 [m, k]) (.param 0 (mkShape .F32 [k, m])) [1, 0]))
              (.broadcast (mkShape .F32 [m, k, n]) (.param 1 (mkShape .F32 [k, n]))))
            (.constant (scalarShape .F32) [0]) [1] : Instr), true) := by
      rw [hmod, sweepB_dot, sweepB_transpose_param, sweepB_param]
      rw [← hmod]
      simp [applyRoot, hroot]
    have h2 : (sweepB defaultOptions
        ((.reduce (mkShape .F32 [m, n])
            (.multiply (mkShape .F32 [m, k, n])
              (.broadcast (mkShape .F32 [m, k, n])
                (.transpose (mkShape .F32 [m, k]) (.param 0 (mkShape .F32 [k, m])) [1, 0]))
              (.broadcast (mkShape .F32 [m, k, n]) (.param 1 (mkShape .F32 [k, n]))))
            (.constant (scalarShape .F32) [0]) [1] : Instr))).2 = false := by
      simp [sweepB, applyRoot, rewriteRoot, handleMultiply, handleConstant, handleTranspose,
        mkShape, scalarShape, Shape.isScalar, PrimitiveType.isIntegral, defaultOptions]
    have hrun := runToFixedPoint_two h1 h2 fuel false
    constructor
    · show (runToFixedPoint defaultOptions (fuel + 1) (dotStrengthModule m k n true false) false).2 = _
      rw [hrun]; simp [hb]
    · show containsDot (runToFixedPoint defaultOptions (fuel + 1) (dotStrengthModule m k n true false) false).1 = _
      rw [hrun]; simp [containsDot, hb]
  · have hb' : (m == 1 || k == 1 || n == 1) = false := by simpa using hb
    have hmod : dotStrengthModule m k n true false =
        .dot (mkShape .F32 [m, n])
          (.transpose (mkShape .F32 [m, k]) (.param 0 (mkShape .F32 [k, m])) [1, 0])
          (.param 1 (mkShape .F32 [k, n])) := rfl
    have hroot : rewriteRoot defaultOptions (dotStrengthModule m k n true false) = none := by
      simp [dotStrengthModule, rewriteRoot, handleDot, dotOfConcat, dotStrengthReduce,
        dotTransposeTranspose, defaultOptions, Instr.shape, mkShape, hb']
    have h1 : sweepB defaultOptions (dotStrengthModule m k n true false)
        = (dotStrengthModule m k n true false, false) := by
      rw [hmod, sweepB_dot, sweepB_transpose_param, sweepB_param]
      rw [← hmod]
      simp [applyRoot, hroot]
    have hrun := runToFixedPoint_stall (by rw [h1]) (fuel + 1) false
    constructor
    · show (runToFixedPoint defaultOptions (fuel + 1) (dotStrengthModule m k n true false) false).2 = _
      rw [hrun]; simp [hb']
    · show containsDot (runToFixedPoint defaultOptions (fuel + 1) (dotStrengthModule m k n true false) false).1 = _
      rw [hrun]; simp [hmod, containsDot, hb']
  · have hmod : dotStrengthModule m k n true true =
        .dot (mkShape .F32 [m, n])
          (.transpose (mkShape .F32 [m, k]) (.param 0 (mkShape .F32 [k, m])) [1, 0])
          (.transpose (mkShape .F32 [k, n]) (.param 1 (mkShape .F32 [n, k])) [1, 0]) := rfl
    have hroot : rewriteRoot defaultOptions (dotStrengthModule m k n true true)
        = some (.reduce (mkShape .F32 [m, n])
            (.multiply (mkShape .F32 [m, k, n])
              (.broadcast (mkShape .F32 [m, k, n])
                (.transpose (mkShape .F32 [m, k]) (.param 0 (mkShape .F32 [k, m])) [1, 0]))
              (.broadcast (mkShape .F32 [m, k, n])
                (.transpose (mkShape .F32 [k, n]) (.param 1 (mkShape .F32 [n, k])) [1, 0])))
            (.constant (scalarShape .F32) [0]) [1]) := by
      simp [dotStrengthModule, rewriteRoot, handleDot, dotOfConcat,
        dotStrengthReduce, defaultOptions, Instr.shape, mkShape, hb, scalarShape]
    have h1 : sweepB defaultOptions (dotStrengthModule m k n true true)
        = ((.reduce (mkShape .F32 [m, n])
            (.multiply (mkShape .F32 [m, k, n])
              (.broadcast (mkShape .F32 [m, k, n])
                (.transpose (mkShape .F32 [m, k]) (.param 0 (mkShape .F32 [k, m])) [1, 0]))
              (.broadcast (mkShape .F32 [m, k, n])
                (.transpose (mkShape .F32 [k, n]) (.param 1 (mkShape .F32 [n, k])) [1, 0])))
            (.constant (scalarShape .F32) [0]) [1] : Instr), true) := by
      rw [hmod, sweepB_dot, sweepB_transpose_param, sweepB_transpose_param]
      rw [← hmod]
      simp [applyRoot, hroot]
    have h2 : (sweepB defaultOptions
        ((.reduce (mkShape .F32 [m, n])
            (.multiply (mkShape .F32 [m, k, n])
              (.broadcast (mkShape .F32 [m, k, n])
                (.transpose (mkShape .F32 [m, k]) (.param 0 (mkShape .F32 [k, m])) [1, 0]))
              (.broadcast (mkShape .F32 [m, k, n])
                (.transpose (mkShape .F32 [k, n]) (.param 1 (mkShape .F32 [n, k])) [1, 0])))
            (.constant (scalarShape .F32) [0]) [1] : Instr))).2 = false := by
      simp [sweepB, applyRoot, rewriteRoot, handleMultiply, handleConstant, handleTranspose,
        mkShape, scalarShape, Shape.isScalar, PrimitiveType.isIntegral, defaultOptions]
    have hrun := runToFixedPoint_two h1 h2 fuel false
    constructor
    · show (runToFixedPoint defaultOptions (fuel + 1) (dotStrengthModule m k n true true) false).2 = _
      rw [hrun]; simp [hb]
    · show containsDot (runToFixedPoint defaultOptions (fuel + 1) (dotStrengthModule m k n true true) false).1 = _
      rw [hrun]; simp [containsDot, hb]
  · have hb' : (m == 1 || k == 1 || n == 1) = false := by simpa using hb
    have hmod : dotStrengthModule m k n true true =
        .dot (mkShape .F32 [m, n])
          (.transpose (mkShape .F32 [m, k]) (.param 0 (mkShape .F32 [k, m])) [1, 0])
          (.transpose (mkShape .F32 [k, n]) (.param 1 (mkShape .F32 [n, k])) [1, 0]) := rfl
    have hroot : rewriteRoot defaultOptions (dotStrengthModule m k n true true)
        = some (.transpose (mkShape .F32 [m, n])
            (.dot (mkShape .F32 [n, m])
              (.param 1 (mkShape .F32 [n, k])) (.param 0 (mkShape .F32 [k, m]))) [1, 0]) := by
      simp [dotStrengthModule, rewriteRoot, handleDot, dotOfConcat, dotStrengthReduce,
        dotTransposeTranspose, defaultOptions, Instr.shape, mkShape, hb']
    have h1 : sweepB defaultOptions (dotStrengthModule m k n true true)
        = ((.transpose (mkShape .F32 [m, n])
            (.dot (mkShape .F32 [n, m])
              (.param 1 (mkShape .F32 [n, k])) (.param 0 (mkShape .F32 [k, m]))) [1, 0] : Instr), true) := by
      rw [hmod, sweepB_dot, sweepB_transpose_param, sweepB_transpose_param]
      rw [← hmod]
      simp [applyRoot, hroot]
    have h2 : (sweepB defaultOptions
        ((.transpose (mkShape .F32 [m, n])
            (.dot (mkShape .F32 [n, m])
              (.param 1 (mkShape .F32 [n, k])) (.param 0 (mkShape .F32 [k, m]))) [1, 0] : Instr))).2 = false := by
      have hb2 : (n == 1 || k == 1 || m == 1) = false := by
        simp only [Bool.or_eq_false_iff] at hb' ⊢
        exact ⟨⟨hb'.2, hb'.1.2⟩, hb'.1.1⟩
      simp [sweepB, applyRoot, rewriteRoot, handleDot, dotOfConcat, dotStrengthReduce,
        dotTransposeTranspose, handleTranspose, mkShape, Instr.shape, defaultOptions, hb2]
    have hrun := runToFixedPoint_two h1 h2 fuel false
    constructor
    · show (runToFixedPoint defaultOptions (fuel + 1) (dotStrengthModule m k n true true) false).2 = _
      rw [hrun]; simp [hb']
    · show containsDot (runToFixedPoint defaultOptions (fuel + 1) (dotStrengthModule m k n true true) false).1 = _
      rw [hrun]; simp [containsDot, hb']

end HloSim
